import Mathlib

/-!
Shallow embedding of the Santorini engine core from the repository's Rust
sources (`board.rs`, `mcts.rs`, `predictor.rs`).

Conventions of the embedding:
* machine integers (`i8`, `u16`, `u32`, `usize`) are modelled as `ℤ`/`ℕ`;
  none of the embedded code paths overflow their machine ranges on the
  states considered, so no wrap-around is modelled;
* `f32` arithmetic is modelled as exact arithmetic: `ℚ` where the code only
  adds, compares and divides integer-valued quantities, `ℝ` where `sqrt` or
  `exp` appear;
* Rust panics (`assert!`, `panic!`, `unwrap`, `expect`) are modelled by
  `Option`-returning functions (`none` = panic);
* randomness (the `SmallRng` draws and the Dirichlet sample vector) is
  modelled by explicit input parameters.
-/

namespace Ascent

/-- `DIRECTIONS` from `board.rs`: the Moore neighbourhood in row-major order. -/
def DIRECTIONS : Fin 9 → ℤ × ℤ :=
  ![(-1, -1), (-1, 0), (-1, 1), (0, -1), (0, 0), (0, 1), (1, -1), (1, 0), (1, 1)]

/-- `encode_action` from `board.rs` (with `NB_GODS = 1`, power channel zero):
`NB_GODS * 9 * 9 * worker + 9 * 9 * 0 + 9 * move_direction + build_direction`. -/
def encode_action (worker move_direction build_direction : ℕ) : ℕ :=
  81 * worker + 9 * move_direction + build_direction

/-- `decode_action` from `board.rs`. -/
def decode_action (action : ℕ) : ℕ × ℕ × ℕ :=
  (action / 81, action % 81 / 9, action % 81 % 9)

/-- `BoardState` from `board.rs`: 25 worker cells (`i8`), 25 level cells
(`i8`), and a `u16` round counter. -/
structure BoardState where
  workers : Fin 25 → ℤ
  levels : Fin 25 → ℤ
  round : ℕ

/-- `idx(y, x) = y * BOARD_SIZE + x` from `board.rs`, on in-bounds positions. -/
def idx (p : Fin 5 × Fin 5) : Fin 25 :=
  ⟨p.1.val * 5 + p.2.val, by have h1 := p.1.isLt; have h2 := p.2.isLt; omega⟩

/-- `apply_direction` from `board.rs`: offset a position by a direction,
returning `none` when the result is off the board. -/
def apply_direction (position : Fin 5 × Fin 5) (direction : Fin 9) :
    Option (Fin 5 × Fin 5) :=
  let ny : ℤ := (position.1.val : ℤ) + (DIRECTIONS direction).1
  let nx : ℤ := (position.2.val : ℤ) + (DIRECTIONS direction).2
  if h : 0 ≤ ny ∧ ny < 5 ∧ 0 ≤ nx ∧ nx < 5 then
    some (⟨ny.toNat, by omega⟩, ⟨nx.toNat, by omega⟩)
  else
    none

/-- The row-major traversal order `for y in 0..5 { for x in 0..5 }` used by
`BoardState::find_worker`. -/
def cell_list : List (Fin 5 × Fin 5) :=
  (List.finRange 5).flatMap (fun y => (List.finRange 5).map (fun x => (y, x)))

/-- `BoardState::find_worker`: first cell (row-major) holding the given id. -/
def find_worker (s : BoardState) (worker : ℤ) : Option (Fin 5 × Fin 5) :=
  cell_list.find? (fun p => decide (s.workers (idx p) = worker))

/-- `BoardState::can_move` from `board.rs`. -/
def can_move (s : BoardState) (old_pos new_pos : Fin 5 × Fin 5) : Bool :=
  if old_pos = new_pos then true
  else if s.workers (idx new_pos) ≠ 0 then false
  else if 3 < s.levels (idx new_pos) then false
  else decide (s.levels (idx new_pos) ≤ s.levels (idx old_pos) + 1)

/-- `BoardState::can_build` from `board.rs`. -/
def can_build (s : BoardState) (pos : Fin 5 × Fin 5) (ignore : ℤ) : Bool :=
  if s.workers (idx pos) ≠ 0 ∧ s.workers (idx pos) ≠ ignore then false
  else decide (s.levels (idx pos) < 4)

/-- `BoardState::next_placement`: the pending worker in the fixed order
`+1, +2, -1, -2`, with its owner. -/
def next_placement (s : BoardState) : Option (ℕ × ℤ) :=
  if (find_worker s 1).isNone then some (0, 1)
  else if (find_worker s 2).isNone then some (0, 2)
  else if (find_worker s (-1)).isNone then some (1, -1)
  else if (find_worker s (-2)).isNone then some (1, -2)
  else none

/-- `BoardState::valid_moves` from `board.rs`, as the characteristic function
of the written mask.  The imperative version iterates all
`(worker, move_direction, build_direction)` triples and sets
`out[encode_action w m b]`; since `encode_action` is injective on
`w < 2, m < 9, b < 9`, entry `a` of the mask is `true` exactly when the
decoded triple of `a` passes the per-triple checks, which is what this
function computes. -/
def valid_moves (s : BoardState) (player : ℕ) (a : Fin 162) : Bool :=
  if (next_placement s).isSome then
    if h : a.val < 25 then decide (s.workers ⟨a.val, h⟩ = 0) else false
  else
    if a.val % 81 / 9 = 4 then false
    else if a.val % 81 % 9 = 4 then false
    else
      match find_worker s (((a.val / 81 : ℕ) + 1 : ℤ) * (if player = 0 then 1 else -1)) with
      | none => false
      | some position =>
        match apply_direction position ⟨a.val % 81 / 9, by omega⟩ with
        | none => false
        | some target =>
          if can_move s position target then
            match apply_direction target ⟨a.val % 81 % 9, by omega⟩ with
            | none => false
            | some build_pos =>
              can_build s build_pos (((a.val / 81 : ℕ) + 1 : ℤ) * (if player = 0 then 1 else -1))
          else false

/-- `BoardState::bump_round`: saturating increment at 127. -/
def bump_round (r : ℕ) : ℕ :=
  if r < 127 then r + 1 else r

/-- `BoardState::make_move` from `board.rs`.  Panics (`assert!`, `panic!`,
`unwrap_or_else`, `expect`) are modelled as `none`.  The placement branch
places the pending worker; the movement branch moves the decoded worker and,
when the build direction is not 4 and the build cell is on the board, raises
that cell's level capped at 4.  Returns the updated state and the next
player. -/
def make_move (s : BoardState) (action : ℕ) (player : ℕ) : Option (BoardState × ℕ) :=
  match next_placement s with
  | some (placement_player, worker_to_place) =>
    if h : action < 25 then
      if placement_player = player then
        if s.workers ⟨action, h⟩ = 0 then
          some ({ s with
                    workers := Function.update s.workers ⟨action, h⟩ worker_to_place,
                    round := bump_round s.round },
                if worker_to_place = 1 ∨ worker_to_place = -1 then placement_player
                else 1 - placement_player)
        else none
      else none
    else none
  | none =>
    match find_worker s (((action / 81 : ℕ) + 1 : ℤ) * (if player = 0 then 1 else -1)) with
    | none => none
    | some old_pos =>
      match apply_direction old_pos ⟨action % 81 / 9, by omega⟩ with
      | none => none
      | some target =>
        some ({ workers :=
                  Function.update (Function.update s.workers (idx old_pos) 0) (idx target)
                    (((action / 81 : ℕ) + 1 : ℤ) * (if player = 0 then 1 else -1)),
                levels :=
                  if action % 81 % 9 ≠ 4 then
                    match apply_direction target ⟨action % 81 % 9, by omega⟩ with
                    | some build_pos =>
                      Function.update s.levels (idx build_pos)
                        (min (s.levels (idx build_pos) + 1) 4)
                    | none => s.levels
                  else s.levels,
                round := bump_round s.round },
              1 - player)

/-- `BoardState::score_for`: highest level among the given player's worker
cells (starting from 0). -/
def score_for (s : BoardState) (player : ℕ) : ℤ :=
  (List.finRange 25).foldl
    (fun highest cell =>
      if (if player = 0 then 0 < s.workers cell else s.workers cell < 0) then
        max highest (s.levels cell)
      else highest)
    0

/-- `BoardState::has_any_valid_move` from `board.rs`. -/
def has_any_valid_move (s : BoardState) (player : ℕ) : Bool :=
  (List.finRange 162).any (fun a => valid_moves s player a)

/-- `BoardState::result_value` from `board.rs` (f32 values `±1.0` as `ℚ`). -/
def result_value (s : BoardState) (next_player : ℕ) : Option ℚ :=
  if (next_placement s).isSome then none
  else if score_for s 0 = 3 then some 1
  else if score_for s 1 = 3 then some (-1)
  else if has_any_valid_move s next_player = false then
    some (if next_player = 0 then -1 else 1)
  else none

/-- `BoardState::write_into_slice` from `board.rs`: cell-major, 3 channels per
cell; byte `3i` is `workers[i]`, byte `3i+1` is `levels[i]`, byte `3i+2` is
`round.min(127)` for `i = 0` and `0` otherwise (the cursor loop unrolled into
the index map). -/
def write_into_slice (s : BoardState) : Fin 75 → ℤ :=
  fun j =>
    if j.val % 3 = 0 then s.workers ⟨j.val / 3, by have := j.isLt; omega⟩
    else if j.val % 3 = 1 then s.levels ⟨j.val / 3, by have := j.isLt; omega⟩
    else if j.val / 3 = 0 then ((min s.round 127 : ℕ) : ℤ)
    else 0

/-- `BoardState::from_bytes` from `board.rs`: workers from byte `3i`, levels
from byte `3i+1`, round from byte `2` clamped to `0..=127`. -/
def from_bytes (bytes : Fin 75 → ℤ) : BoardState :=
  { workers := fun i => bytes ⟨3 * i.val, by have := i.isLt; omega⟩,
    levels := fun i => bytes ⟨3 * i.val + 1, by have := i.isLt; omega⟩,
    round := (max 0 (min (bytes ⟨2, by omega⟩) 127)).toNat }

end Ascent

namespace Ascent

/-- `EPS` from `mcts.rs` (`1e-8`), as an exact rational. -/
def EPS : ℚ := 1 / 100000000

/-- `MIN_FLOAT = f32::MIN` from `mcts.rs`, the exact value `-(2^128 - 2^104)`. -/
noncomputable def MIN_FLOAT : ℝ := -(2 ^ 128 - 2 ^ 104)

/-- `TreeNode` from `mcts.rs`. -/
structure TreeNode where
  policy : Fin 162 → ℝ
  valid : Fin 162 → Bool
  visit_count : ℕ
  qsa : Fin 162 → ℝ
  nsa : Fin 162 → ℕ
  mean_value : ℝ
  terminal_value : Option ℝ
  round : ℕ

/-- `TreeNode::record_value` from `mcts.rs`:
`weight = previous_visits + 1`,
`mean_value = (mean_value * weight + value) / (weight + 1)`,
`visit_count = previous_visits + 1`. -/
noncomputable def record_value (node : TreeNode) (value : ℝ) : TreeNode :=
  { node with
      mean_value :=
        (node.mean_value * ((node.visit_count : ℝ) + 1) + value) /
          (((node.visit_count : ℝ) + 1) + 1),
      visit_count := node.visit_count + 1 }

/-- The per-node body of `SantoriniMcts::backpropagate` from `mcts.rs`:
`record_value`, then `nsa[a] += 1` and
`qsa[a] += (value - qsa[a]) / nsa[a]` (with the incremented `nsa[a]`). -/
noncomputable def backpropagate_update (node : TreeNode) (action : Fin 162)
    (value : ℝ) : TreeNode :=
  let node' := record_value node value
  { node' with
      nsa := Function.update node'.nsa action (node'.nsa action + 1),
      qsa := Function.update node'.qsa action
        (node'.qsa action +
          (value - node'.qsa action) / ((node'.nsa action : ℝ) + 1)) }

/-- The `q` pair of `SantoriniMcts::search` from `mcts.rs`:
`green_value = if root_player == 0 { q } else { -q }` and the result field
`q: [green_value, -green_value]`, where `q` is the root node's `mean_value`. -/
noncomputable def search_q (root_player : ℕ) (q : ℝ) : ℝ × ℝ :=
  (if root_player = 0 then q else -q, -(if root_player = 0 then q else -q))

/-- The set of legal action indices of a mask (`valid_indices` in `mcts.rs`). -/
def legal_set (valid : Fin 162 → Bool) : Finset (Fin 162) :=
  Finset.univ.filter (fun a => valid a = true)

/-- The prior array built by `TreeNode::from_prediction` in `mcts.rs`:
`exp(pi[a])` summed over legal actions; if the sum exceeds `EPS` each legal
weight is divided by it, otherwise a uniform prior is spread over the legal
actions (or over all 162 actions when no action is legal).  `pi.getD a 0`
models `prediction.pi.get(idx).copied().unwrap_or(0.0)`. -/
noncomputable def from_prediction_policy (valid : Fin 162 → Bool) (pi : List ℝ) :
    Fin 162 → ℝ :=
  fun a =>
    if (∑ b ∈ legal_set valid, Real.exp (pi.getD b.val 0)) ≤ ((EPS : ℚ) : ℝ) then
      if (legal_set valid).card = 0 then 1 / 162
      else if valid a then 1 / ((legal_set valid).card : ℝ) else 0
    else if valid a then
      Real.exp (pi.getD a.val 0) / (∑ b ∈ legal_set valid, Real.exp (pi.getD b.val 0))
    else 0

/-- `TreeNode::apply_dirichlet` from `mcts.rs`, restricted to its effect on
the `policy` array.  The Dirichlet draw is modelled by the explicit `sample`
vector (indexed by action; `sample a` is the component zipped with legal
index `a`).  No-ops when `weight ≤ 0`, `alpha ≤ 0` or fewer than two legal
actions; otherwise mixes `(1-w)·policy + w·sample` on legal entries and
renormalises the legal entries when their sum exceeds `EPS`. -/
noncomputable def apply_dirichlet_policy (valid : Fin 162 → Bool)
    (policy : Fin 162 → ℝ) (sample : Fin 162 → ℝ) (alpha weight : ℝ) :
    Fin 162 → ℝ :=
  if weight ≤ 0 ∨ alpha ≤ 0 then policy
  else if (legal_set valid).card < 2 then policy
  else
    fun a =>
      if ((EPS : ℚ) : ℝ) <
          (∑ b ∈ legal_set valid,
            (if valid b then (1 - weight) * policy b + weight * sample b else policy b)) then
        if valid a then
          ((1 - weight) * policy a + weight * sample a) /
            (∑ b ∈ legal_set valid,
              (if valid b then (1 - weight) * policy b + weight * sample b else policy b))
        else policy a
      else if valid a then (1 - weight) * policy a + weight * sample a else policy a

/-- The forced-playout threshold `(coefficient * policy[a].max(0.0) * n).sqrt().floor() as u32`
from `mcts.rs` (used with `n = iteration.max(1)` in `select_action` and
`n = num_sims` in `root_distribution`). -/
noncomputable def forced_expected (coefficient : ℝ) (policy : Fin 162 → ℝ) (n : ℕ) :
    Fin 162 → ℕ :=
  fun a => ⌊Real.sqrt (coefficient * max (policy a) 0 * (n : ℝ))⌋₊

/-- The per-action PUCT score computed inside `TreeNode::select_action`:
`sqrt_ns = (visit_count as f32 + EPS).sqrt()`, `total = sqrt(visit_count)`;
an unvisited edge scores `(mean_value - fpu) + cpuct * policy * sqrt_ns`, a
visited edge scores `qsa + cpuct * policy * total / (1 + nsa)` (the
exploration term being 0 when `total = 0`).

The argument of `sqrt_ns` is modelled after the f32 value the program
computes, not the real-number sum: `EPS = 1e-8` lies below half an ulp of
every f32 value `≥ 1`, so for `visit_count ≥ 1` the addition
`visit_count as f32 + EPS` returns exactly `visit_count`, and for
`visit_count = 0` it returns exactly `EPS` (whose f32 representation differs
from `1e-8` by under `2e-16`; only its positivity matters below). -/
noncomputable def code_score (node : TreeNode) (cpuct fpu_reduction : ℝ)
    (a : Fin 162) : ℝ :=
  if node.nsa a = 0 then
    (node.mean_value - fpu_reduction) +
      cpuct * node.policy a *
        Real.sqrt (if node.visit_count = 0 then ((EPS : ℚ) : ℝ) else (node.visit_count : ℝ))
  else
    node.qsa a +
      (if 0 < Real.sqrt (node.visit_count : ℝ) then
        cpuct * node.policy a * Real.sqrt (node.visit_count : ℝ) / (1 + (node.nsa a : ℝ))
      else 0)

/-- Modelled from the spec (claim C5): the selection score the claim states,
with `sqrtN = max(total_visits, 1)^0.5` and denominator `1 + edge_visits[a]`
on every edge; `Q = edge_q[a]` when visited, else `mean_value - fpu`. -/
noncomputable def claim_score (node : TreeNode) (cpuct fpu_reduction : ℝ)
    (a : Fin 162) : ℝ :=
  (if node.nsa a = 0 then node.mean_value - fpu_reduction else node.qsa a) +
    cpuct * node.policy a * Real.sqrt (max (node.visit_count : ℝ) 1) /
      (1 + (node.nsa a : ℝ))

/-- The running-argmax loop of `TreeNode::select_action`: scan actions in
order, skip illegal ones, and keep the first strictly-larger score. -/
noncomputable def select_fold (valid : Fin 162 → Bool) (score : Fin 162 → ℝ)
    (L : List (Fin 162)) (init : ℝ × Fin 162) : ℝ × Fin 162 :=
  L.foldl
    (fun best a =>
      if valid a then (if best.1 < score a then (score a, a) else best) else best)
    init

/-- `TreeNode::select_action` from `mcts.rs`.  The imperative loop returns
early at the first legal action whose forced-playout target is unmet; since
that test does not depend on the running best, this equals checking for a
first qualifying action (`find?`) and otherwise running the pure
running-argmax over `code_score` starting from `(MIN_FLOAT, 0)`. -/
noncomputable def select_action (node : TreeNode) (cpuct fpu_reduction : ℝ)
    (forced_playouts : Bool) (iteration : ℕ) (coefficient : ℝ) : Fin 162 :=
  match (List.finRange 162).find? (fun a =>
      node.valid a &&
        (forced_playouts &&
          decide (node.nsa a < forced_expected coefficient node.policy (max iteration 1) a))) with
  | some a => a
  | none =>
    (select_fold node.valid (code_score node cpuct fpu_reduction)
      (List.finRange 162) (MIN_FLOAT, (0 : Fin 162))).2

/-- The per-action counts built at the top of
`SantoriniMcts::root_distribution`: raw visit counts on legal actions, 0 on
illegal ones; when forced playouts were active and the best legal visit count
is positive, every non-best legal action has the forced-playout threshold
subtracted (saturating), and the adjusted count is kept only when it exceeds
1.  The threshold function is passed explicitly (instantiated with
`forced_expected coefficient policy num_sims` in the search). -/
def root_counts (valid : Fin 162 → Bool) (visits : Fin 162 → ℕ)
    (forced_playouts : Bool) (expected : Fin 162 → ℕ) : Fin 162 → ℚ :=
  if forced_playouts then
    if 0 < (List.finRange 162).foldl (fun m a => if valid a then max m (visits a) else m) 0 then
      fun a =>
        if valid a = false then 0
        else if visits a =
            (List.finRange 162).foldl (fun m a => if valid a then max m (visits a) else m) 0 then
          ((visits a : ℕ) : ℚ)
        else if 1 < visits a - expected a then ((visits a - expected a : ℕ) : ℚ)
        else 0
    else fun a => if valid a then ((visits a : ℕ) : ℚ) else 0
  else fun a => if valid a then ((visits a : ℕ) : ℚ) else 0

/-- The temperature-0 scan of `SantoriniMcts::root_distribution`: walk the
legal actions in order keeping the running best count (`best_value`, started
at `-1.0`) and the list of indices tied with it within `EPS`. -/
def temp0_fold (valid : Fin 162 → Bool) (counts : Fin 162 → ℚ) :
    ℚ × List (Fin 162) :=
  (List.finRange 162).foldl
    (fun st a =>
      if valid a then
        if st.1 + EPS < counts a then (counts a, [a])
        else if |counts a - st.1| ≤ EPS then (st.1, st.2 ++ [a])
        else st
      else st)
    (-1, [])

/-- The temperature-0 selection of `SantoriniMcts::root_distribution`: when
the tie list is non-empty pick `ties[rng.gen_range(0..len)]` (the drawn index
modelled by `choice % len`), otherwise fall back to the first legal action
(or index 0). -/
def temp0_selected (valid : Fin 162 → Bool) (counts : Fin 162 → ℚ)
    (choice : ℕ) : Fin 162 :=
  if (temp0_fold valid counts).2.isEmpty then
    ((List.finRange 162).find? (fun a => valid a)).getD 0
  else
    (temp0_fold valid counts).2.getD (choice % (temp0_fold valid counts).2.length) 0

/-- The temperature-0 root policy: probability 1 on the selected action. -/
def temp0_policy (valid : Fin 162 → Bool) (counts : Fin 162 → ℚ)
    (choice : ℕ) : Fin 162 → ℚ :=
  fun a => if a = temp0_selected valid counts choice then 1 else 0

/-- The root node's `policy` array after the first simulation of a search
call (`SantoriniMcts::run_single_simulation` with `apply_dirichlet = true`),
as a function of the transposition-table lookup of the root key.  When the
root node exists, the first loop iteration (breadcrumbs empty) applies the
Dirichlet mixing to it and the rest of the simulation never touches any
node's `policy`.  When it does not exist, the first iteration takes the
expansion branch: a terminal root gets the all-zero policy of
`TreeNode::terminal`, otherwise the node is created by
`TreeNode::from_prediction` — with no Dirichlet application. -/
noncomputable def root_policy_after_first_sim (lookup : Option TreeNode)
    (board : BoardState) (pi : List ℝ) (sample : Fin 162 → ℝ)
    (alpha weight : ℝ) : Fin 162 → ℝ :=
  match lookup with
  | some node => apply_dirichlet_policy node.valid node.policy sample alpha weight
  | none =>
    match result_value board 0 with
    | some _ => fun _ => 0
    | none => from_prediction_policy (fun a => valid_moves board 0 a) pi

/-- Modelled from the spec (claim C4): terminal detection with the win
conditions written as the spec states them — a player wins when the highest
level among its workers is exactly 3, expressed here as "some worker cell
has level 3 and no worker cell has level above 3". -/
def result_value_spec (s : BoardState) (next_player : ℕ) : Option ℚ :=
  if (next_placement s).isSome then none
  else if (∃ i, 0 < s.workers i ∧ s.levels i = 3) ∧ (∀ i, 0 < s.workers i → s.levels i ≤ 3) then
    some 1
  else if (∃ i, s.workers i < 0 ∧ s.levels i = 3) ∧ (∀ i, s.workers i < 0 → s.levels i ≤ 3) then
    some (-1)
  else if ∀ a : Fin 162, valid_moves s next_player a = false then
    some (if next_player = 0 then -1 else 1)
  else none

/-- A movement-phase position: all four workers placed (`+1` at (2,2), `+2`
at (0,4), `-1` at (4,0), `-2` at (4,4)), empty board otherwise. -/
def board_movement : BoardState :=
  { workers := fun i =>
      if i.val = 12 then 1 else if i.val = 4 then 2
      else if i.val = 20 then -1 else if i.val = 24 then -2 else 0,
    levels := fun _ => 0,
    round := 4 }

/-- A movement-phase position whose player-0 workers stand on levels 4 and 3
(workers `+1, +2, -1, -2` on cells 0..3; level 4 under `+1`, level 3 under
`+2`). -/
def board_level4 : BoardState :=
  { workers := fun i =>
      if i.val = 0 then 1 else if i.val = 1 then 2
      else if i.val = 2 then -1 else if i.val = 3 then -2 else 0,
    levels := fun i => if i.val = 0 then 4 else if i.val = 1 then 3 else 0,
    round := 4 }

/-- A placement-phase position with exactly two empty cells (cells 0 and 1);
every other cell is blocked by a non-zero marker, and worker `+1` is still
pending. -/
def board_two_placements : BoardState :=
  { workers := fun i => if i.val = 0 ∨ i.val = 1 then 0 else 3,
    levels := fun _ => 0,
    round := 0 }

/-- A Dirichlet sample vector over the two legal actions 0 and 1
(components `3/4` and `1/4`). -/
noncomputable def sample_c7 : Fin 162 → ℝ :=
  fun a => if a.val = 0 then 3 / 4 else if a.val = 1 then 1 / 4 else 0

/-- A root node with two legal actions 0 and 1 and uniform priors, as used to
instantiate the amended C7. -/
noncomputable def node_c7 : TreeNode :=
  { policy := fun a => if a.val < 2 then 1 / 2 else 0,
    valid := fun a => decide (a.val < 2),
    visit_count := 0,
    qsa := fun _ => 0,
    nsa := fun _ => 0,
    mean_value := 0,
    terminal_value := none,
    round := 0 }

end Ascent

namespace Ascent

section BoardTheorems

/-- Generic description of the `foldl max` loop used by `score_for`. -/
theorem score_fold_spec (f : Fin 25 → Bool) (lv : Fin 25 → ℤ) :
    ∀ (L : List (Fin 25)) (init : ℤ),
      init ≤ L.foldl (fun h c => if f c then max h (lv c) else h) init ∧
      (∀ c ∈ L, f c = true → lv c ≤ L.foldl (fun h c => if f c then max h (lv c) else h) init) ∧
      (L.foldl (fun h c => if f c then max h (lv c) else h) init = init ∨
        ∃ c ∈ L, f c = true ∧ lv c = L.foldl (fun h c => if f c then max h (lv c) else h) init) := by
  intro L
  induction L with
  | nil => intro init; simp
  | cons x T ih =>
    intro init
    by_cases hx : f x = true
    · have h := ih (max init (lv x))
      simp only [List.foldl_cons, hx, if_pos]
      refine ⟨le_trans (le_max_left _ _) h.1, ?_, ?_⟩
      · intro c hc hfc
        rcases List.mem_cons.mp hc with hceq | hc2
        · subst hceq; exact le_trans (le_max_right _ _) h.1
        · exact h.2.1 c hc2 hfc
      · rcases h.2.2 with heq | ⟨c, hc2, hfc, hlv⟩
        · rcases max_choice init (lv x) with hm | hm
          · left; rw [heq, hm]
          · right; exact ⟨x, List.mem_cons_self x T, hx, by rw [heq, hm]⟩
        · right; exact ⟨c, List.mem_cons_of_mem x hc2, hfc, hlv⟩
    · have h := ih init
      have hfx : f x = false := by
        cases hfx2 : f x
        · rfl
        · exact absurd hfx2 hx
      simp only [List.foldl_cons, hfx, Bool.false_eq_true, if_false]
      refine ⟨h.1, ?_, ?_⟩
      · intro c hc hfc
        rcases List.mem_cons.mp hc with hceq | hc2
        · subst hceq; rw [hfx] at hfc; exact absurd hfc (by simp)
        · exact h.2.1 c hc2 hfc
      · rcases h.2.2 with heq | ⟨c, hc2, hfc, hlv⟩
        · left; exact heq
        · right; exact ⟨c, List.mem_cons_of_mem x hc2, hfc, hlv⟩

/-- `score_for s p = 3` iff some worker cell of `p` has level exactly 3 and
no worker cell of `p` has level above 3. -/
theorem score_for_eq_three (s : BoardState) (player : ℕ) :
    score_for s player = 3 ↔
      ((∃ i, (if player = 0 then 0 < s.workers i else s.workers i < 0) ∧ s.levels i = 3) ∧
        ∀ i, (if player = 0 then 0 < s.workers i else s.workers i < 0) → s.levels i ≤ 3) := by
  have h := score_fold_spec
      (fun c => decide (if player = 0 then 0 < s.workers c else s.workers c < 0))
      s.levels (List.finRange 25) 0
  have hrw : score_for s player =
      (List.finRange 25).foldl
        (fun h c =>
          if decide (if player = 0 then 0 < s.workers c else s.workers c < 0) = true then
            max h (s.levels c)
          else h) 0 := by
    unfold score_for
    congr 1
    funext hh c
    by_cases hc : (if player = 0 then 0 < s.workers c else s.workers c < 0)
    · simp [hc]
    · simp [hc]
  constructor
  · intro h3
    rw [hrw] at h3
    rcases h.2.2 with heq | ⟨c, hc, hfc, hlv⟩
    · rw [heq] at h3; exact absurd h3 (by norm_num)
    · refine ⟨⟨c, by simpa using hfc, by rw [hlv, h3]⟩, ?_⟩
      intro i hi
      have := h.2.1 i (List.mem_finRange i) (by simpa using hi)
      rw [h3] at this; exact this
  · rintro ⟨⟨i, hi, h3⟩, hub⟩
    rw [hrw]
    have hlow : (3 : ℤ) ≤ _ := h3 ▸ h.2.1 i (List.mem_finRange i) (by simpa using hi)
    rcases h.2.2 with heq | ⟨c, hc, hfc, hlv⟩
    · rw [heq] at hlow; exact absurd hlow (by norm_num)
    · have := hub c (by simpa using hfc)
      omega

/-- Claim C9 — serialisation round-trip: for every board state whose round is
at most 127, deserialising the 75-byte serialisation yields the same workers,
levels and round. -/
theorem c9_serialisation_roundtrip (s : BoardState) (h : s.round ≤ 127) :
    (from_bytes (write_into_slice s)).workers = s.workers ∧
    (from_bytes (write_into_slice s)).levels = s.levels ∧
    (from_bytes (write_into_slice s)).round = s.round := by
  refine ⟨funext fun i => ?_, funext fun i => ?_, ?_⟩
  · show write_into_slice s ⟨3 * i.val, _⟩ = s.workers i
    unfold write_into_slice
    simp only [Fin.val_mk]
    rw [if_pos (by omega)]
    congr 1
    exact Fin.ext (by simp only [Fin.val_mk]; omega)
  · show write_into_slice s ⟨3 * i.val + 1, _⟩ = s.levels i
    unfold write_into_slice
    simp only [Fin.val_mk]
    rw [if_neg (by omega), if_pos (by omega)]
    congr 1
    exact Fin.ext (by simp only [Fin.val_mk]; omega)
  · show (max 0 (min (write_into_slice s ⟨2, _⟩) 127)).toNat = s.round
    have hval : write_into_slice s ⟨2, by omega⟩ = ((min s.round 127 : ℕ) : ℤ) := by
      unfold write_into_slice
      norm_num
    rw [hval, min_eq_left h, min_eq_left (by exact_mod_cast h), max_eq_right (by positivity)]
    omega

/-- Witness for C9 at a concrete state (round 42, a few pieces placed). -/
theorem c9_serialisation_roundtrip_witness :
    ({ workers := fun i => if i.val = 0 then 1 else if i.val = 24 then -2 else 0,
       levels := fun i => if i.val = 12 then 3 else 0,
       round := 42 } : BoardState).round ≤ 127 ∧
    ((from_bytes (write_into_slice
        { workers := fun i => if i.val = 0 then 1 else if i.val = 24 then -2 else 0,
          levels := fun i => if i.val = 12 then 3 else 0,
          round := 42 })).workers =
      ({ workers := fun i => if i.val = 0 then 1 else if i.val = 24 then -2 else 0,
         levels := fun i => if i.val = 12 then 3 else 0,
         round := 42 } : BoardState).workers ∧
     (from_bytes (write_into_slice
        { workers := fun i => if i.val = 0 then 1 else if i.val = 24 then -2 else 0,
          levels := fun i => if i.val = 12 then 3 else 0,
          round := 42 })).levels =
      ({ workers := fun i => if i.val = 0 then 1 else if i.val = 24 then -2 else 0,
         levels := fun i => if i.val = 12 then 3 else 0,
         round := 42 } : BoardState).levels ∧
     (from_bytes (write_into_slice
        { workers := fun i => if i.val = 0 then 1 else if i.val = 24 then -2 else 0,
          levels := fun i => if i.val = 12 then 3 else 0,
          round := 42 })).round =
      ({ workers := fun i => if i.val = 0 then 1 else if i.val = 24 then -2 else 0,
         levels := fun i => if i.val = 12 then 3 else 0,
         round := 42 } : BoardState).round) :=
  ⟨by norm_num, c9_serialisation_roundtrip _ (by norm_num)⟩

/-- Claim C2 — counterexample: for the queried player 1 with root mean value
`1/2`, the returned `q` pair is `(-1/2, 1/2)`, so its first entry is not the
queried player's value `1/2`; the claim that `q = [q0, -q0]` indexed by the
queried player first is false. -/
theorem c2_q_order_counterexample :
    (search_q 1 (1 / 2)).1 ≠ (1 / 2 : ℝ) ∧ search_q 1 (1 / 2) = (-(1 / 2), (1 / 2 : ℝ)) := by
  constructor
  · unfold search_q; norm_num
  · unfold search_q; norm_num

/-- Claim C2 (amended) — the returned `q` pair is `[g, -g]` where `g` is the
root value from player 0's ("green") perspective, i.e. `g = q0` when player 0
is queried and `g = -q0` when player 1 is queried; equivalently entry `p` of
the pair is the queried player `p`'s value `q0`. -/
theorem c2_q_green_amended (p : ℕ) (q : ℝ) (hp : p = 0 ∨ p = 1) :
    search_q p q = (if p = 0 then q else -q, if p = 0 then -q else q) ∧
    (if p = 0 then (search_q p q).1 else (search_q p q).2) = q := by
  rcases hp with hp | hp <;> subst hp <;> simp [search_q]

/-- Witness for the amended C2 at player 1, root value `1/3`. -/
theorem c2_q_green_amended_witness :
    ((1 : ℕ) = 0 ∨ (1 : ℕ) = 1) ∧
    (search_q 1 (1 / 3) =
        (if (1 : ℕ) = 0 then (1 / 3 : ℝ) else -(1 / 3),
         if (1 : ℕ) = 0 then -(1 / 3 : ℝ) else 1 / 3) ∧
      (if (1 : ℕ) = 0 then (search_q 1 (1 / 3 : ℝ)).1 else (search_q 1 (1 / 3)).2) = 1 / 3) :=
  ⟨Or.inr rfl, c2_q_green_amended 1 (1 / 3) (Or.inr rfl)⟩

/-- The aggregate effect of folding `backpropagate_update` over a list of
propagated values: visit counts grow by the length, and the products
`mean_value * (visit_count + 1)` and `edge_q * edge_visits` grow by the sum
of the values. -/
theorem backprop_fold_general (a : Fin 162) :
    ∀ (vs : List ℝ) (node : TreeNode),
      (vs.foldl (fun n v => backpropagate_update n a v) node).visit_count =
          node.visit_count + vs.length ∧
      (vs.foldl (fun n v => backpropagate_update n a v) node).nsa a =
          node.nsa a + vs.length ∧
      (vs.foldl (fun n v => backpropagate_update n a v) node).mean_value *
          (((node.visit_count + vs.length : ℕ) : ℝ) + 1) =
        node.mean_value * ((node.visit_count : ℝ) + 1) + vs.sum ∧
      (vs.foldl (fun n v => backpropagate_update n a v) node).qsa a *
          ((node.nsa a + vs.length : ℕ) : ℝ) =
        node.qsa a * ((node.nsa a : ℕ) : ℝ) + vs.sum := by
  intro vs
  induction vs with
  | nil => intro node; simp
  | cons v T ih =>
    intro node
    have h := ih (backpropagate_update node a v)
    have hvc : (backpropagate_update node a v).visit_count = node.visit_count + 1 := by
      simp [backpropagate_update, record_value]
    have hnsa : (backpropagate_update node a v).nsa a = node.nsa a + 1 := by
      simp [backpropagate_update, record_value]
    have hmean : (backpropagate_update node a v).mean_value *
        (((node.visit_count : ℕ) : ℝ) + 1 + 1) =
        node.mean_value * ((node.visit_count : ℝ) + 1) + v := by
      simp only [backpropagate_update, record_value]
      rw [div_mul_cancel₀]
      positivity
    have hqsa : (backpropagate_update node a v).qsa a * (((node.nsa a : ℕ) : ℝ) + 1) =
        node.qsa a * ((node.nsa a : ℕ) : ℝ) + v := by
      simp only [backpropagate_update, record_value, Function.update_same]
      have hne : ((node.nsa a : ℕ) : ℝ) + 1 ≠ 0 := by positivity
      field_simp
      ring
    simp only [List.foldl_cons, List.length_cons, List.sum_cons]
    refine ⟨by rw [h.1, hvc]; omega, by rw [h.2.1, hnsa]; omega, ?_, ?_⟩
    · have hthis := h.2.2.1
      rw [hvc] at hthis
      push_cast at hthis ⊢
      rw [hmean] at hthis
      linear_combination hthis
    · have hthis := h.2.2.2
      rw [hnsa] at hthis
      push_cast at hthis ⊢
      rw [hqsa] at hthis
      linear_combination hthis

/-- Claim C1 — counterexample: a node with initial predictor value `1/5` and
zero visits receives the single propagated value `2/5`; the code sets
`mean_value = 3/10` (the "legacy" average that counts the initial value as a
sample), which differs both from the claim's incremental-mean update
`mean + (v - mean)/total_visits = 2/5` and from the arithmetic mean `2/5` of
the propagated values. -/
theorem c1_mean_update_counterexample :
    (backpropagate_update
        { policy := fun _ => 0, valid := fun _ => false, visit_count := 0,
          qsa := fun _ => 0, nsa := fun _ => 0, mean_value := 1 / 5,
          terminal_value := none, round := 0 } 0 (2 / 5)).mean_value ≠
      (1 / 5 : ℝ) + (2 / 5 - 1 / 5) / ((0 : ℕ) + 1) ∧
    (backpropagate_update
        { policy := fun _ => 0, valid := fun _ => false, visit_count := 0,
          qsa := fun _ => 0, nsa := fun _ => 0, mean_value := 1 / 5,
          terminal_value := none, round := 0 } 0 (2 / 5)).mean_value ≠ 2 / 5 := by
  have hval : (backpropagate_update
      { policy := fun _ => 0, valid := fun _ => false, visit_count := 0,
        qsa := fun _ => 0, nsa := fun _ => 0, mean_value := 1 / 5,
        terminal_value := none, round := 0 } 0 (2 / 5)).mean_value = (3 / 10 : ℝ) := by
    simp [backpropagate_update, record_value]
    norm_num
  rw [hval]
  norm_num

/-- Claim C1 (amended) — the edge statistics update as the claim states
(`edge_visits[a] += 1`, `edge_q[a] += (v - edge_q[a]) / edge_visits[a]`,
`total_visits += 1`), but the node mean follows
`mean_value = (mean_value * (N + 1) + v) / (N + 2)` with `N` the previous
`total_visits`: after `n` propagated values `v1..vn` through edge `a` of a
fresh node, `edge_visits[a] = total_visits = n`, `edge_q[a]` is the
arithmetic mean of `v1..vn`, and `mean_value` is the arithmetic mean of the
initial predictor value together with `v1..vn`. -/
theorem c1_backprop_stats_amended (node : TreeNode) (a : Fin 162) (vs : List ℝ)
    (h0 : node.visit_count = 0) (h1 : node.nsa a = 0) (h2 : node.qsa a = 0) :
    (vs.foldl (fun n v => backpropagate_update n a v) node).visit_count = vs.length ∧
    (vs.foldl (fun n v => backpropagate_update n a v) node).nsa a = vs.length ∧
    (vs.foldl (fun n v => backpropagate_update n a v) node).mean_value =
      (node.mean_value + vs.sum) / ((vs.length : ℝ) + 1) ∧
    (vs ≠ [] →
      (vs.foldl (fun n v => backpropagate_update n a v) node).qsa a =
        vs.sum / (vs.length : ℝ)) := by
  have h := backprop_fold_general a vs node
  rw [h0, h1, h2] at h
  refine ⟨by simpa using h.1, by simpa using h.2.1, ?_, ?_⟩
  · have hm := h.2.2.1
    have hne : ((vs.length : ℝ) + 1) ≠ 0 := by positivity
    push_cast at hm
    rw [eq_div_iff hne]
    linear_combination hm
  · intro hvs
    have hq := h.2.2.2
    have hlen : (0 : ℝ) < (vs.length : ℝ) := by
      exact_mod_cast List.length_pos.mpr hvs
    push_cast at hq
    rw [eq_div_iff (ne_of_gt hlen)]
    linear_combination hq

/-- Witness for the amended C1: a fresh node with predictor value `1/5`
receiving the values `[2/5, -1/10]`. -/
theorem c1_backprop_stats_amended_witness :
    ({ policy := fun _ => 0, valid := fun _ => false, visit_count := 0,
       qsa := fun _ => 0, nsa := fun _ => 0, mean_value := 1 / 5,
       terminal_value := none, round := 0 } : TreeNode).visit_count = 0 ∧
    (([(2 : ℝ) / 5, -1 / 10].foldl (fun n v => backpropagate_update n 0 v)
        { policy := fun _ => 0, valid := fun _ => false, visit_count := 0,
          qsa := fun _ => 0, nsa := fun _ => 0, mean_value := 1 / 5,
          terminal_value := none, round := 0 }).visit_count = [(2 : ℝ) / 5, -1 / 10].length ∧
      ([(2 : ℝ) / 5, -1 / 10].foldl (fun n v => backpropagate_update n 0 v)
        { policy := fun _ => 0, valid := fun _ => false, visit_count := 0,
          qsa := fun _ => 0, nsa := fun _ => 0, mean_value := 1 / 5,
          terminal_value := none, round := 0 }).nsa 0 = [(2 : ℝ) / 5, -1 / 10].length ∧
      ([(2 : ℝ) / 5, -1 / 10].foldl (fun n v => backpropagate_update n 0 v)
        { policy := fun _ => 0, valid := fun _ => false, visit_count := 0,
          qsa := fun _ => 0, nsa := fun _ => 0, mean_value := 1 / 5,
          terminal_value := none, round := 0 }).mean_value =
        (({ policy := fun _ => 0, valid := fun _ => false, visit_count := 0,
            qsa := fun _ => 0, nsa := fun _ => 0, mean_value := 1 / 5,
            terminal_value := none, round := 0 } : TreeNode).mean_value +
          [(2 : ℝ) / 5, -1 / 10].sum) / (([(2 : ℝ) / 5, -1 / 10].length : ℝ) + 1) ∧
      ([(2 : ℝ) / 5, -1 / 10] ≠ [] →
        ([(2 : ℝ) / 5, -1 / 10].foldl (fun n v => backpropagate_update n 0 v)
          { policy := fun _ => 0, valid := fun _ => false, visit_count := 0,
            qsa := fun _ => 0, nsa := fun _ => 0, mean_value := 1 / 5,
            terminal_value := none, round := 0 }).qsa 0 =
          [(2 : ℝ) / 5, -1 / 10].sum / (([(2 : ℝ) / 5, -1 / 10].length : ℝ)))) :=
  ⟨rfl, c1_backprop_stats_amended _ 0 _ rfl rfl rfl⟩

/-- Claim C3 — counterexample: `board_movement` is in the movement phase
(all four workers placed), yet action index 0 — decoding to worker 0, move
direction 0, build direction 0 — is legal there, contradicting "during the
movement phase no index in 0..25 is ever legal". -/
theorem c3_mask_counterexample :
    next_placement board_movement = none ∧
    ((0 : Fin 162)).val < 25 ∧
    valid_moves board_movement 0 (0 : Fin 162) = true :=
  ⟨by decide, by decide, by decide⟩

/-- Claim C3 (amended) — during the placement phase no index ≥ 25 is legal;
during the movement phase indices below 25 *can* be legal (they encode
worker-0 triples with small move/build directions). -/
theorem c3_mask_amended :
    (∀ (s : BoardState) (p : ℕ) (a : Fin 162),
      (next_placement s).isSome → 25 ≤ a.val → valid_moves s p a = false) ∧
    (∃ (s : BoardState) (a : Fin 162),
      next_placement s = none ∧ a.val < 25 ∧ valid_moves s 0 a = true) := by
  constructor
  · intro s p a hs ha
    unfold valid_moves
    rw [if_pos hs, dif_neg (by omega)]
  · exact ⟨board_movement, 0, by decide, by decide, by decide⟩

/-- Witness for the amended C3: in the placement-phase state
`board_two_placements`, index 30 (≥ 25) is illegal. -/
theorem c3_mask_amended_witness :
    ((next_placement board_two_placements).isSome ∧ 25 ≤ ((30 : Fin 162)).val) ∧
    valid_moves board_two_placements 0 (30 : Fin 162) = false :=
  ⟨⟨by decide, by decide⟩,
    c3_mask_amended.1 board_two_placements 0 30 (by decide) (by decide)⟩

/-- Claim C4 — counterexample: in `board_level4` the placement phase is over
and player 0 holds a worker on a level-3 cell (worker `+2` on cell 1), so the
claim demands `result_value = +1.0`; but the code computes
`score_for(0) = 4 ≠ 3` (worker `+1` stands on a level-4 cell) and returns
`None`. -/
theorem c4_result_value_counterexample :
    next_placement board_level4 = none ∧
    (∃ i, 0 < board_level4.workers i ∧ board_level4.levels i = 3) ∧
    result_value board_level4 0 ≠ some 1 :=
  ⟨by decide, by decide, by decide⟩

/-- Claim C4 (amended) — terminal detection with the win condition "the
highest level among the player's workers is exactly 3" (some worker cell at
level 3 and none above 3) in place of "holds a worker on a level-3 cell";
placement-unfinished gives `None`, player 0 then player 1 win checks, then
the stalemate loss for `next_player`, else `None`. -/
theorem c4_result_value_amended (s : BoardState) (next_player : ℕ) :
    result_value s next_player = result_value_spec s next_player := by
  have h0 : (score_for s 0 = 3) ↔
      ((∃ i, 0 < s.workers i ∧ s.levels i = 3) ∧ ∀ i, 0 < s.workers i → s.levels i ≤ 3) := by
    simpa using score_for_eq_three s 0
  have h1 : (score_for s 1 = 3) ↔
      ((∃ i, s.workers i < 0 ∧ s.levels i = 3) ∧ ∀ i, s.workers i < 0 → s.levels i ≤ 3) := by
    simpa using score_for_eq_three s 1
  have h2 : (has_any_valid_move s next_player = false) ↔
      (∀ a : Fin 162, valid_moves s next_player a = false) := by
    unfold has_any_valid_move
    constructor
    · intro h a
      have := List.any_eq_false.mp h a (List.mem_finRange a)
      simpa using this
    · intro h
      apply List.any_eq_false.mpr
      intro a _
      simp [h a]
  unfold result_value result_value_spec
  simp only [h0, h1, h2]

/-- Claim C10 — movement-phase `make_move` whose decoded worker exists and
whose move lands on the board, with a build direction that differs from 4 but
lands off the board, completes without panicking: the levels are unchanged,
the workers change only at the origin (set to 0) and the target (set to the
worker id), and the round is bumped (saturating at 127). -/
theorem c10_make_move_frame (s : BoardState) (action player : ℕ)
    (old_pos target : Fin 5 × Fin 5)
    (hnp : next_placement s = none)
    (hfw : find_worker s
        (((action / 81 : ℕ) + 1 : ℤ) * (if player = 0 then 1 else -1)) = some old_pos)
    (hmv : apply_direction old_pos ⟨action % 81 / 9, by omega⟩ = some target)
    (hbd : action % 81 % 9 ≠ 4)
    (hoff : apply_direction target ⟨action % 81 % 9, by omega⟩ = none) :
    make_move s action player =
      some ({ workers :=
                Function.update (Function.update s.workers (idx old_pos) 0) (idx target)
                  (((action / 81 : ℕ) + 1 : ℤ) * (if player = 0 then 1 else -1)),
              levels := s.levels,
              round := bump_round s.round }, 1 - player) ∧
    (∀ c : Fin 25, c ≠ idx old_pos → c ≠ idx target →
      Function.update (Function.update s.workers (idx old_pos) 0) (idx target)
        (((action / 81 : ℕ) + 1 : ℤ) * (if player = 0 then 1 else -1)) c = s.workers c) := by
  constructor
  · simp only [make_move, hnp, hfw, hmv, hoff]
    rw [if_pos hbd]
  · intro c h1 h2
    rw [Function.update_noteq h2, Function.update_noteq h1]

/-- Witness for C10: in `board_movement`, action 109 moves worker `+2` from
(0,4) to (0,3) and asks for a build at direction 1, which lands off the
board. -/
theorem c10_make_move_frame_witness :
    (next_placement board_movement = none ∧
     find_worker board_movement
        (((109 / 81 : ℕ) + 1 : ℤ) * (if (0 : ℕ) = 0 then 1 else -1)) =
       some (⟨0, by omega⟩, ⟨4, by omega⟩) ∧
     apply_direction ((⟨0, by omega⟩, ⟨4, by omega⟩) : Fin 5 × Fin 5)
        ⟨109 % 81 / 9, by omega⟩ = some (⟨0, by omega⟩, ⟨3, by omega⟩) ∧
     109 % 81 % 9 ≠ 4 ∧
     apply_direction ((⟨0, by omega⟩, ⟨3, by omega⟩) : Fin 5 × Fin 5)
        ⟨109 % 81 % 9, by omega⟩ = none) ∧
    (make_move board_movement 109 0 =
      some ({ workers :=
                Function.update
                  (Function.update board_movement.workers
                    (idx ((⟨0, by omega⟩, ⟨4, by omega⟩) : Fin 5 × Fin 5)) 0)
                  (idx ((⟨0, by omega⟩, ⟨3, by omega⟩) : Fin 5 × Fin 5))
                  (((109 / 81 : ℕ) + 1 : ℤ) * (if (0 : ℕ) = 0 then 1 else -1)),
              levels := board_movement.levels,
              round := bump_round board_movement.round }, 1 - 0) ∧
     (∀ c : Fin 25,
        c ≠ idx ((⟨0, by omega⟩, ⟨4, by omega⟩) : Fin 5 × Fin 5) →
        c ≠ idx ((⟨0, by omega⟩, ⟨3, by omega⟩) : Fin 5 × Fin 5) →
        Function.update
          (Function.update board_movement.workers
            (idx ((⟨0, by omega⟩, ⟨4, by omega⟩) : Fin 5 × Fin 5)) 0)
          (idx ((⟨0, by omega⟩, ⟨3, by omega⟩) : Fin 5 × Fin 5))
          (((109 / 81 : ℕ) + 1 : ℤ) * (if (0 : ℕ) = 0 then 1 else -1)) c =
          board_movement.workers c)) :=
  ⟨⟨by decide, by decide, by decide, by decide, by decide⟩,
    c10_make_move_frame board_movement 109 0 _ _ (by decide) (by decide) (by decide)
      (by decide) (by decide)⟩

/-- Claim C8 — node prior construction: with at least 162 `pi` entries the
prior is `exp(pi[a])` normalised over legal actions when the legal sum of
exponentials exceeds `1e-8`; uniform over legal actions when the sum is at
most `1e-8` and a legal action exists; uniform over all 162 actions when no
action is legal; illegal actions receive 0 whenever a legal action exists;
and the prior is non-negative and sums to 1. -/
theorem c8_prior_construction (valid : Fin 162 → Bool) (pi : List ℝ)
    (hpi : 162 ≤ pi.length) :
    ((∃ b, valid b = true) →
      ∀ a, valid a = false → from_prediction_policy valid pi a = 0) ∧
    (((EPS : ℚ) : ℝ) < (∑ b ∈ legal_set valid, Real.exp (pi.getD b.val 0)) →
      ∀ a, valid a = true →
        from_prediction_policy valid pi a =
          Real.exp (pi.getD a.val 0) /
            (∑ b ∈ legal_set valid, Real.exp (pi.getD b.val 0))) ∧
    ((∑ b ∈ legal_set valid, Real.exp (pi.getD b.val 0)) ≤ ((EPS : ℚ) : ℝ) →
      (∃ b, valid b = true) →
      ∀ a, valid a = true →
        from_prediction_policy valid pi a = 1 / ((legal_set valid).card : ℝ)) ∧
    ((¬ ∃ b, valid b = true) →
      ∀ a, from_prediction_policy valid pi a = 1 / 162) ∧
    (∀ a, 0 ≤ from_prediction_policy valid pi a) ∧
    (∑ a, from_prediction_policy valid pi a) = 1 := by
  have hEps : (0 : ℝ) < ((EPS : ℚ) : ℝ) := by norm_num [EPS]
  have hcard_pos : (∃ b, valid b = true) → 0 < (legal_set valid).card := by
    rintro ⟨b, hb⟩
    exact Finset.card_pos.mpr ⟨b, by simp [legal_set, hb]⟩
  have hempty : (¬ ∃ b, valid b = true) → legal_set valid = ∅ := by
    intro h
    apply Finset.filter_eq_empty_iff.mpr
    intro b _
    exact fun hb => h ⟨b, hb⟩
  refine ⟨?_, ?_, ?_, ?_, ?_, ?_⟩
  · intro hex a ha
    unfold from_prediction_policy
    by_cases hS : (∑ b ∈ legal_set valid, Real.exp (pi.getD b.val 0)) ≤ ((EPS : ℚ) : ℝ)
    · rw [if_pos hS, if_neg (Nat.pos_iff_ne_zero.mp (hcard_pos hex)), if_neg (by simp [ha])]
    · rw [if_neg hS, if_neg (by simp [ha])]
  · intro hS a ha
    unfold from_prediction_policy
    rw [if_neg (not_le.mpr hS), if_pos (by simp [ha])]
  · intro hS hex a ha
    unfold from_prediction_policy
    rw [if_pos hS, if_neg (Nat.pos_iff_ne_zero.mp (hcard_pos hex)), if_pos (by simp [ha])]
  · intro hne a
    unfold from_prediction_policy
    have hS0 : (∑ b ∈ legal_set valid, Real.exp (pi.getD b.val 0)) = 0 := by
      rw [hempty hne, Finset.sum_empty]
    rw [hS0]
    rw [if_pos (le_of_lt hEps), if_pos (by rw [hempty hne]; simp)]
  · intro a
    unfold from_prediction_policy
    by_cases hS : (∑ b ∈ legal_set valid, Real.exp (pi.getD b.val 0)) ≤ ((EPS : ℚ) : ℝ)
    · rw [if_pos hS]
      by_cases hL : (legal_set valid).card = 0
      · rw [if_pos hL]; norm_num
      · rw [if_neg hL]
        by_cases ha : valid a = true
        · rw [if_pos ha]; positivity
        · rw [if_neg ha]
    · rw [if_neg hS]
      by_cases ha : valid a = true
      · rw [if_pos ha]
        have hSpos : (0 : ℝ) < (∑ b ∈ legal_set valid, Real.exp (pi.getD b.val 0)) :=
          lt_trans hEps (not_le.mp hS)
        positivity
      · rw [if_neg ha]
  · by_cases hS : (∑ b ∈ legal_set valid, Real.exp (pi.getD b.val 0)) ≤ ((EPS : ℚ) : ℝ)
    · by_cases hL : (legal_set valid).card = 0
      · have : ∀ a : Fin 162, from_prediction_policy valid pi a = 1 / 162 := by
          intro a
          unfold from_prediction_policy
          rw [if_pos hS, if_pos hL]
        rw [Finset.sum_congr rfl (fun a _ => this a), Finset.sum_const, Finset.card_univ,
          Fintype.card_fin]
        norm_num
      · have : ∀ a : Fin 162, from_prediction_policy valid pi a =
            if valid a = true then 1 / ((legal_set valid).card : ℝ) else 0 := by
          intro a
          unfold from_prediction_policy
          rw [if_pos hS, if_neg hL]
        rw [Finset.sum_congr rfl (fun a _ => this a), ← Finset.sum_filter]
        show (∑ _a ∈ legal_set valid, _) = 1
        rw [Finset.sum_const, nsmul_eq_mul, mul_one_div, div_self (by exact_mod_cast hL)]
    · have : ∀ a : Fin 162, from_prediction_policy valid pi a =
          if valid a = true then
            Real.exp (pi.getD a.val 0) /
              (∑ b ∈ legal_set valid, Real.exp (pi.getD b.val 0))
          else 0 := by
        intro a
        unfold from_prediction_policy
        rw [if_neg hS]
      have hSne : (∑ b ∈ legal_set valid, Real.exp (pi.getD b.val 0)) ≠ 0 :=
        ne_of_gt (lt_trans hEps (not_le.mp hS))
      rw [Finset.sum_congr rfl (fun a _ => this a), ← Finset.sum_filter]
      show (∑ a ∈ legal_set valid, _) = 1
      rw [← Finset.sum_div, div_self hSne]

/-- Witness for C8: two legal actions (0 and 1) and `pi` the all-zero list of
length 162. -/
theorem c8_prior_construction_witness :
    162 ≤ (List.replicate 162 (0 : ℝ)).length ∧
    (((∃ b, (fun a : Fin 162 => decide (a.val < 2)) b = true) →
      ∀ a, (fun a : Fin 162 => decide (a.val < 2)) a = false →
        from_prediction_policy (fun a : Fin 162 => decide (a.val < 2))
          (List.replicate 162 (0 : ℝ)) a = 0) ∧
    (((EPS : ℚ) : ℝ) <
        (∑ b ∈ legal_set (fun a : Fin 162 => decide (a.val < 2)),
          Real.exp ((List.replicate 162 (0 : ℝ)).getD b.val 0)) →
      ∀ a, (fun a : Fin 162 => decide (a.val < 2)) a = true →
        from_prediction_policy (fun a : Fin 162 => decide (a.val < 2))
            (List.replicate 162 (0 : ℝ)) a =
          Real.exp ((List.replicate 162 (0 : ℝ)).getD a.val 0) /
            (∑ b ∈ legal_set (fun a : Fin 162 => decide (a.val < 2)),
              Real.exp ((List.replicate 162 (0 : ℝ)).getD b.val 0))) ∧
    ((∑ b ∈ legal_set (fun a : Fin 162 => decide (a.val < 2)),
        Real.exp ((List.replicate 162 (0 : ℝ)).getD b.val 0)) ≤ ((EPS : ℚ) : ℝ) →
      (∃ b, (fun a : Fin 162 => decide (a.val < 2)) b = true) →
      ∀ a, (fun a : Fin 162 => decide (a.val < 2)) a = true →
        from_prediction_policy (fun a : Fin 162 => decide (a.val < 2))
            (List.replicate 162 (0 : ℝ)) a =
          1 / ((legal_set (fun a : Fin 162 => decide (a.val < 2))).card : ℝ)) ∧
    ((¬ ∃ b, (fun a : Fin 162 => decide (a.val < 2)) b = true) →
      ∀ a, from_prediction_policy (fun a : Fin 162 => decide (a.val < 2))
          (List.replicate 162 (0 : ℝ)) a = 1 / 162) ∧
    (∀ a, 0 ≤ from_prediction_policy (fun a : Fin 162 => decide (a.val < 2))
        (List.replicate 162 (0 : ℝ)) a) ∧
    (∑ a, from_prediction_policy (fun a : Fin 162 => decide (a.val < 2))
        (List.replicate 162 (0 : ℝ)) a) = 1) :=
  ⟨by simp, c8_prior_construction _ _ (by simp)⟩

/-- Claim C7 (amended) — Dirichlet noise is mixed into the root's legal
priors during the first simulation exactly when the root node is already
present in the transposition table when that simulation starts: in that case
every legal prior becomes `(1-w)*prior + w*sample` (renormalised; under unit
prior and sample sums the mixed sum is already 1) — whereas when the root key
is absent the first simulation expands the root instead, storing the
prediction prior untouched by the noise, independently of the sample. -/
theorem c7_dirichlet_amended (node : TreeNode) (board : BoardState) (pi : List ℝ)
    (sample : Fin 162 → ℝ) (alpha weight : ℝ)
    (hw : 0 < weight) (ha : 0 < alpha)
    (hcard : 2 ≤ (legal_set node.valid).card)
    (hpsum : (∑ b ∈ legal_set node.valid, node.policy b) = 1)
    (hssum : (∑ b ∈ legal_set node.valid, sample b) = 1) :
    (∀ a, node.valid a = true →
      root_policy_after_first_sim (some node) board pi sample alpha weight a =
        (1 - weight) * node.policy a + weight * sample a) ∧
    (∑ b ∈ legal_set node.valid,
      root_policy_after_first_sim (some node) board pi sample alpha weight b) = 1 ∧
    (result_value board 0 = none →
      ∀ sample' : Fin 162 → ℝ,
        root_policy_after_first_sim none board pi sample' alpha weight =
          from_prediction_policy (fun a => valid_moves board 0 a) pi) := by
  have hmem : ∀ b ∈ legal_set node.valid, node.valid b = true := by
    intro b hb
    simpa [legal_set] using hb
  have hT : (∑ b ∈ legal_set node.valid,
      (if node.valid b then (1 - weight) * node.policy b + weight * sample b
       else node.policy b)) = 1 := by
    rw [Finset.sum_congr rfl (fun b hb => if_pos (hmem b hb)), Finset.sum_add_distrib,
      ← Finset.mul_sum, ← Finset.mul_sum, hpsum, hssum]
    ring
  have hguard1 : ¬(weight ≤ 0 ∨ alpha ≤ 0) := by push_neg; exact ⟨hw, ha⟩
  have hguard2 : ¬((legal_set node.valid).card < 2) := by omega
  have happ : ∀ a, node.valid a = true →
      root_policy_after_first_sim (some node) board pi sample alpha weight a =
        (1 - weight) * node.policy a + weight * sample a := by
    intro a hva
    show apply_dirichlet_policy node.valid node.policy sample alpha weight a = _
    unfold apply_dirichlet_policy
    rw [if_neg hguard1, if_neg hguard2]
    simp only [hT]
    rw [if_pos (by norm_num [EPS]), if_pos hva, div_one]
  refine ⟨happ, ?_, ?_⟩
  · rw [Finset.sum_congr rfl (fun b hb => happ b (hmem b hb)), Finset.sum_add_distrib,
      ← Finset.mul_sum, ← Finset.mul_sum, hpsum, hssum]
    ring
  · intro hterm sample'
    unfold root_policy_after_first_sim
    rw [hterm]

/-- Witness for the amended C7: the root node `node_c7` (two legal actions,
uniform priors) is present in the table; `w = 1/2`, `α = 3/10`, sample
`sample_c7`. -/
theorem c7_dirichlet_amended_witness :
    ((0 : ℝ) < 1 / 2 ∧ (0 : ℝ) < 3 / 10 ∧
     2 ≤ (legal_set node_c7.valid).card ∧
     (∑ b ∈ legal_set node_c7.valid, node_c7.policy b) = 1 ∧
     (∑ b ∈ legal_set node_c7.valid, sample_c7 b) = 1) ∧
    ((∀ a, node_c7.valid a = true →
        root_policy_after_first_sim (some node_c7) board_two_placements
            (List.replicate 162 (0 : ℝ)) sample_c7 (3 / 10) (1 / 2) a =
          (1 - 1 / 2) * node_c7.policy a + 1 / 2 * sample_c7 a) ∧
     (∑ b ∈ legal_set node_c7.valid,
        root_policy_after_first_sim (some node_c7) board_two_placements
          (List.replicate 162 (0 : ℝ)) sample_c7 (3 / 10) (1 / 2) b) = 1 ∧
     (result_value board_two_placements 0 = none →
       ∀ sample' : Fin 162 → ℝ,
         root_policy_after_first_sim none board_two_placements
             (List.replicate 162 (0 : ℝ)) sample' (3 / 10) (1 / 2) =
           from_prediction_policy (fun a => valid_moves board_two_placements 0 a)
             (List.replicate 162 (0 : ℝ)))) := by
  have hleg : legal_set node_c7.valid = {0, 1} := by decide
  have hpol0 : node_c7.policy 0 = 1 / 2 := by norm_num [node_c7]
  have hpol1 : node_c7.policy 1 = 1 / 2 := by norm_num [node_c7]
  have hsam0 : sample_c7 0 = 3 / 4 := by norm_num [sample_c7]
  have hsam1 : sample_c7 1 = 1 / 4 := by norm_num [sample_c7]
  have h1 : (0 : ℝ) < 1 / 2 := by norm_num
  have h2 : (0 : ℝ) < 3 / 10 := by norm_num
  have h3 : 2 ≤ (legal_set node_c7.valid).card := by rw [hleg]; decide
  have h4 : (∑ b ∈ legal_set node_c7.valid, node_c7.policy b) = 1 := by
    rw [hleg, Finset.sum_pair (by decide : (0 : Fin 162) ≠ 1), hpol0, hpol1]
    norm_num
  have h5 : (∑ b ∈ legal_set node_c7.valid, sample_c7 b) = 1 := by
    rw [hleg, Finset.sum_pair (by decide : (0 : Fin 162) ≠ 1), hsam0, hsam1]
    norm_num
  exact ⟨⟨h1, h2, h3, h4, h5⟩,
    c7_dirichlet_amended node_c7 board_two_placements (List.replicate 162 (0 : ℝ))
      sample_c7 (3 / 10) (1 / 2) h1 h2 h3 h4 h5⟩

/-- Claim C7 — counterexample: a full search from `board_two_placements`
(two legal root actions, `w = 1/2 > 0`, `α = 3/10 > 0`) whose root key is
absent from the transposition table: after the first simulation the root
prior at action 0 is the raw prediction prior `1/2`, not the Dirichlet-mixed
value `5/8` the claim requires. -/
theorem c7_dirichlet_counterexample :
    root_policy_after_first_sim none board_two_placements (List.replicate 162 (0 : ℝ))
        sample_c7 (3 / 10) (1 / 2) (0 : Fin 162) = 1 / 2 ∧
    apply_dirichlet_policy (fun a => valid_moves board_two_placements 0 a)
        (root_policy_after_first_sim none board_two_placements (List.replicate 162 (0 : ℝ))
          sample_c7 (3 / 10) (1 / 2)) sample_c7 (3 / 10) (1 / 2) (0 : Fin 162) = 5 / 8 ∧
    (1 / 2 : ℝ) ≠ 5 / 8 := by
  have hres : result_value board_two_placements 0 = none := by decide
  have hlegal : legal_set (fun a : Fin 162 => valid_moves board_two_placements 0 a) =
      {0, 1} := by decide
  have hgetD : ∀ i : ℕ, (List.replicate 162 (0 : ℝ)).getD i 0 = 0 := by
    intro i
    rw [List.getD_eq_getElem?_getD, List.getElem?_replicate]
    split <;> rfl
  have hS : (∑ b ∈ legal_set (fun a : Fin 162 => valid_moves board_two_placements 0 a),
      Real.exp ((List.replicate 162 (0 : ℝ)).getD b.val 0)) = 2 := by
    rw [hlegal, Finset.sum_pair (by decide : (0 : Fin 162) ≠ 1), hgetD, hgetD, Real.exp_zero]
    norm_num
  have hp : ∀ a : Fin 162, valid_moves board_two_placements 0 a = true →
      root_policy_after_first_sim none board_two_placements (List.replicate 162 (0 : ℝ))
        sample_c7 (3 / 10) (1 / 2) a = 1 / 2 := by
    intro a hva
    unfold root_policy_after_first_sim
    rw [hres]
    show from_prediction_policy (fun a => valid_moves board_two_placements 0 a)
        (List.replicate 162 (0 : ℝ)) a = 1 / 2
    unfold from_prediction_policy
    rw [hS, if_neg (by norm_num [EPS]), if_pos hva, hgetD, Real.exp_zero]
  have hp0 := hp 0 (by decide)
  have hp1 := hp 1 (by decide)
  have hT : (∑ b ∈ legal_set (fun a : Fin 162 => valid_moves board_two_placements 0 a),
      (if valid_moves board_two_placements 0 b then
        (1 - 1 / 2) *
            root_policy_after_first_sim none board_two_placements
              (List.replicate 162 (0 : ℝ)) sample_c7 (3 / 10) (1 / 2) b +
          1 / 2 * sample_c7 b
       else
        root_policy_after_first_sim none board_two_placements
          (List.replicate 162 (0 : ℝ)) sample_c7 (3 / 10) (1 / 2) b)) = 1 := by
    rw [hlegal, Finset.sum_pair (by decide : (0 : Fin 162) ≠ 1),
      if_pos (by decide), if_pos (by decide), hp0, hp1]
    norm_num [sample_c7]
  refine ⟨hp0, ?_, by norm_num⟩
  unfold apply_dirichlet_policy
  rw [if_neg (by norm_num : ¬((1 : ℝ) / 2 ≤ 0 ∨ (3 : ℝ) / 10 ≤ 0)),
    if_neg (by rw [hlegal]; norm_num)]
  simp only [hT]
  rw [if_pos (by norm_num [EPS]), if_pos (by decide), hp0, div_one]
  norm_num [sample_c7]

/-- Characterisation of the running-argmax loop `select_fold`: the result
bound dominates the initial bound and every legal score in the list, and the
result is either the unchanged initial pair (when no legal score beats the
initial bound) or the first legal action achieving the final bound, every
earlier legal action scoring strictly less. -/
theorem select_fold_spec (valid : Fin 162 → Bool) (score : Fin 162 → ℝ) :
    ∀ (L : List (Fin 162)) (init : ℝ × Fin 162),
      init.1 ≤ (select_fold valid score L init).1 ∧
      (∀ a ∈ L, valid a = true → score a ≤ (select_fold valid score L init).1) ∧
      ((select_fold valid score L init = init ∧
          ∀ a ∈ L, valid a = true → score a ≤ init.1) ∨
        (∃ pre post, L = pre ++ (select_fold valid score L init).2 :: post ∧
          valid (select_fold valid score L init).2 = true ∧
          score (select_fold valid score L init).2 = (select_fold valid score L init).1 ∧
          init.1 < (select_fold valid score L init).1 ∧
          ∀ a ∈ pre, valid a = true → score a < (select_fold valid score L init).1)) := by
  intro L
  induction L with
  | nil => intro init; exact ⟨le_refl _, by simp, Or.inl ⟨rfl, by simp⟩⟩
  | cons x T ih =>
    intro init
    by_cases hvx : valid x = true
    · by_cases hlt : init.1 < score x
      · have hstep : select_fold valid score (x :: T) init =
            select_fold valid score T (score x, x) := by
          unfold select_fold
          simp only [List.foldl_cons]
          rw [if_pos hvx, if_pos hlt]
        have h := ih (score x, x)
        rw [hstep]
        refine ⟨le_trans (le_of_lt hlt) h.1, ?_, ?_⟩
        · intro a ha hva
          rcases List.mem_cons.mp ha with hax | haT
          · subst hax; exact h.1
          · exact h.2.1 a haT hva
        · rcases h.2.2 with ⟨heq, hall⟩ | ⟨pre, post, hdec, hv, hsc, hgt, hpre⟩
          · right
            have h2x : (select_fold valid score T (score x, x)).2 = x := by rw [heq]
            have h1x : (select_fold valid score T (score x, x)).1 = score x := by rw [heq]
            refine ⟨[], T, ?_, ?_, ?_, ?_, by simp⟩
            · rw [h2x]; rfl
            · rw [h2x]; exact hvx
            · rw [h2x, h1x]
            · rw [h1x]; exact hlt
          · right
            refine ⟨x :: pre, post, by rw [List.cons_append, ← hdec], hv, hsc, lt_trans hlt hgt, ?_⟩
            intro a ha hva
            rcases List.mem_cons.mp ha with hax | hap
            · subst hax; exact hgt
            · exact hpre a hap hva
      · have hstep : select_fold valid score (x :: T) init =
            select_fold valid score T init := by
          unfold select_fold
          simp only [List.foldl_cons]
          rw [if_pos hvx, if_neg hlt]
        have h := ih init
        rw [hstep]
        refine ⟨h.1, ?_, ?_⟩
        · intro a ha hva
          rcases List.mem_cons.mp ha with hax | haT
          · subst hax; exact le_trans (not_lt.mp hlt) h.1
          · exact h.2.1 a haT hva
        · rcases h.2.2 with ⟨heq, hall⟩ | ⟨pre, post, hdec, hv, hsc, hgt, hpre⟩
          · left
            refine ⟨heq, ?_⟩
            intro a ha hva
            rcases List.mem_cons.mp ha with hax | haT
            · subst hax; exact not_lt.mp hlt
            · exact hall a haT hva
          · right
            refine ⟨x :: pre, post, by rw [List.cons_append, ← hdec], hv, hsc, hgt, ?_⟩
            intro a ha hva
            rcases List.mem_cons.mp ha with hax | hap
            · subst hax; exact lt_of_le_of_lt (not_lt.mp hlt) hgt
            · exact hpre a hap hva
    · have hstep : select_fold valid score (x :: T) init =
          select_fold valid score T init := by
        unfold select_fold
        simp only [List.foldl_cons]
        rw [if_neg hvx]
      have h := ih init
      rw [hstep]
      refine ⟨h.1, ?_, ?_⟩
      · intro a ha hva
        rcases List.mem_cons.mp ha with hax | haT
        · subst hax; exact absurd hva hvx
        · exact h.2.1 a haT hva
      · rcases h.2.2 with ⟨heq, hall⟩ | ⟨pre, post, hdec, hv, hsc, hgt, hpre⟩
        · left
          refine ⟨heq, ?_⟩
          intro a ha hva
          rcases List.mem_cons.mp ha with hax | haT
          · subst hax; exact absurd hva hvx
          · exact hall a haT hva
        · right
          refine ⟨x :: pre, post, by rw [List.cons_append, ← hdec], hv, hsc, hgt, ?_⟩
          intro a ha hva
          rcases List.mem_cons.mp ha with hax | hap
          · subst hax; exact absurd hva hvx
          · exact hpre a hap hva

/-- With forced playouts inactive the early-return scan finds nothing and
`select_action` is the pure running-argmax of `code_score`. -/
theorem select_action_no_forced (node : TreeNode) (cpuct fpu_reduction : ℝ)
    (iteration : ℕ) (coefficient : ℝ) :
    select_action node cpuct fpu_reduction false iteration coefficient =
      (select_fold node.valid (code_score node cpuct fpu_reduction)
        (List.finRange 162) (MIN_FLOAT, (0 : Fin 162))).2 := by
  unfold select_action
  have hfind : (List.finRange 162).find? (fun a =>
      node.valid a &&
        (false &&
          decide (node.nsa a <
            forced_expected coefficient node.policy (max iteration 1) a))) = none := by
    apply List.find?_eq_none.mpr
    intro a _
    simp
  rw [hfind]

/-- When the node has been visited at least once, the code's selection score
coincides with the claim's `max(N,1)^0.5` score on every action: the f32 sum
`visit_count + EPS` is exactly `visit_count`, which also equals
`max(visit_count, 1)`; the `1 + edge_visits` denominator is 1 on unvisited
edges and `total = sqrt(visit_count) > 0` on visited ones. -/
theorem code_score_eq_claim_score (node : TreeNode) (cpuct fpu_reduction : ℝ)
    (hN : node.visit_count ≠ 0) :
    ∀ a, code_score node cpuct fpu_reduction a =
      claim_score node cpuct fpu_reduction a := by
  intro a
  have hN1 : 1 ≤ node.visit_count := Nat.pos_of_ne_zero hN
  have hmax : max ((node.visit_count : ℕ) : ℝ) 1 = ((node.visit_count : ℕ) : ℝ) :=
    max_eq_left (by exact_mod_cast hN1)
  unfold code_score claim_score
  by_cases ha : node.nsa a = 0
  · rw [if_pos ha, if_pos ha, if_neg hN, hmax, ha, Nat.cast_zero, add_zero, div_one]
  · have htot : 0 < Real.sqrt ((node.visit_count : ℕ) : ℝ) := by
      apply Real.sqrt_pos.mpr
      exact_mod_cast Nat.pos_of_ne_zero hN
    rw [if_neg ha, if_neg ha, hmax, if_pos htot]

/-- Claim C5 — selection rule: for every expanded non-terminal node with a
legal action (whose code score exceeds `f32::MIN`, as every finite f32 score
does) satisfying the node invariant that zero total visits means every edge
is unvisited (maintained by node construction and backpropagation, which
grow `visit_count` and `nsa` together), when forced playouts are inactive
`select_action` returns the legal action maximising `Q + U` with
`Q = edge_q[a]` if `edge_visits[a] > 0` and `mean_value - fpu_reduction`
otherwise, and
`U = cpuct * prior[a] * sqrt(max(total_visits,1)) / (1 + edge_visits[a])`;
ties are broken in favour of the first legal action encountered.  For
`total_visits ≥ 1` the code's f32 score equals this formula exactly
(`code_score_eq_claim_score`); for `total_visits = 0` every legal edge is
unvisited and the code's positive factor `sqrt(EPS)` induces the same
ordering as the claim's factor `sqrt(max(0,1)) = 1`. -/
theorem c5_select_action_puct (node : TreeNode) (cpuct fpu_reduction coefficient : ℝ)
    (iteration : ℕ) (a₀ : Fin 162)
    (h₀ : node.valid a₀ = true)
    (hinv : node.visit_count = 0 → ∀ a, node.nsa a = 0)
    (hmin : MIN_FLOAT < code_score node cpuct fpu_reduction a₀) :
    node.valid (select_action node cpuct fpu_reduction false iteration coefficient) = true ∧
    (∀ b, node.valid b = true →
      claim_score node cpuct fpu_reduction b ≤
        claim_score node cpuct fpu_reduction
          (select_action node cpuct fpu_reduction false iteration coefficient)) ∧
    (∀ b, node.valid b = true →
      b < select_action node cpuct fpu_reduction false iteration coefficient →
      claim_score node cpuct fpu_reduction b <
        claim_score node cpuct fpu_reduction
          (select_action node cpuct fpu_reduction false iteration coefficient)) := by
  rw [select_action_no_forced]
  have h := select_fold_spec node.valid (code_score node cpuct fpu_reduction)
    (List.finRange 162) (MIN_FLOAT, (0 : Fin 162))
  rcases h.2.2 with ⟨heq, hall⟩ | ⟨pre, post, hdec, hv, hsc, hgt, hpre⟩
  · exact absurd (hall a₀ (List.mem_finRange a₀) h₀) (not_le.mpr hmin)
  · have hmax_code : ∀ b, node.valid b = true →
        code_score node cpuct fpu_reduction b ≤
          code_score node cpuct fpu_reduction
            ((select_fold node.valid (code_score node cpuct fpu_reduction)
              (List.finRange 162) (MIN_FLOAT, (0 : Fin 162))).2) := by
      intro b hb
      rw [hsc]
      exact h.2.1 b (List.mem_finRange b) hb
    have hfirst_code : ∀ b, node.valid b = true →
        b < (select_fold node.valid (code_score node cpuct fpu_reduction)
            (List.finRange 162) (MIN_FLOAT, (0 : Fin 162))).2 →
        code_score node cpuct fpu_reduction b <
          code_score node cpuct fpu_reduction
            ((select_fold node.valid (code_score node cpuct fpu_reduction)
              (List.finRange 162) (MIN_FLOAT, (0 : Fin 162))).2) := by
      intro b hb hblt
      rw [hsc]
      have hbmem : b ∈ pre ++
          (select_fold node.valid (code_score node cpuct fpu_reduction)
            (List.finRange 162) (MIN_FLOAT, (0 : Fin 162))).2 :: post := by
        rw [← hdec]; exact List.mem_finRange b
      rcases List.mem_append.mp hbmem with hbpre | hbtail
      · exact hpre b hbpre hb
      · exfalso
        have hpw := List.pairwise_lt_finRange 162
        rw [hdec] at hpw
        have htail := (List.pairwise_append.mp hpw).2.1
        rcases List.mem_cons.mp hbtail with hbeq | hbpost
        · exact absurd hblt (by rw [hbeq]; exact lt_irrefl _)
        · have := (List.pairwise_cons.mp htail).1 b hbpost
          exact absurd hblt (not_lt.mpr (le_of_lt this))
    by_cases hN : node.visit_count = 0
    · have hnsa := hinv hN
      have hs : 0 < Real.sqrt ((EPS : ℚ) : ℝ) :=
        Real.sqrt_pos.mpr (by norm_num [EPS])
      have hcode_form : ∀ b, code_score node cpuct fpu_reduction b =
          (node.mean_value - fpu_reduction) +
            cpuct * node.policy b * Real.sqrt ((EPS : ℚ) : ℝ) := by
        intro b
        unfold code_score
        rw [if_pos (hnsa b), if_pos hN]
      have hclaim_form : ∀ b, claim_score node cpuct fpu_reduction b =
          (node.mean_value - fpu_reduction) + cpuct * node.policy b := by
        intro b
        unfold claim_score
        rw [if_pos (hnsa b), hnsa b, hN, Nat.cast_zero,
          max_eq_right (by norm_num : (0 : ℝ) ≤ 1), Real.sqrt_one, mul_one,
          add_zero, div_one]
      refine ⟨hv, ?_, ?_⟩
      · intro b hb
        have hcc := hmax_code b hb
        rw [hcode_form, hcode_form] at hcc
        rw [hclaim_form, hclaim_form]
        have h3 := le_of_mul_le_mul_right (by linarith :
          cpuct * node.policy b * Real.sqrt ((EPS : ℚ) : ℝ) ≤
            cpuct * node.policy
              ((select_fold node.valid (code_score node cpuct fpu_reduction)
                (List.finRange 162) (MIN_FLOAT, (0 : Fin 162))).2) *
              Real.sqrt ((EPS : ℚ) : ℝ)) hs
        linarith
      · intro b hb hblt
        have hcc := hfirst_code b hb hblt
        rw [hcode_form, hcode_form] at hcc
        rw [hclaim_form, hclaim_form]
        have h3 := lt_of_mul_lt_mul_right (by linarith :
          cpuct * node.policy b * Real.sqrt ((EPS : ℚ) : ℝ) <
            cpuct * node.policy
              ((select_fold node.valid (code_score node cpuct fpu_reduction)
                (List.finRange 162) (MIN_FLOAT, (0 : Fin 162))).2) *
              Real.sqrt ((EPS : ℚ) : ℝ)) (le_of_lt hs)
        linarith
    · have he := code_score_eq_claim_score node cpuct fpu_reduction hN
      refine ⟨hv, ?_, ?_⟩
      · intro b hb
        rw [← he, ← he]
        exact hmax_code b hb
      · intro b hb hblt
        rw [← he, ← he]
        exact hfirst_code b hb hblt

/-- Witness for C5: the node `node_c7` (two legal actions, all statistics
zero) with `cpuct = 0` and `fpu = 0`, whose legal scores are 0. -/
theorem c5_select_action_puct_witness :
    (node_c7.valid 0 = true ∧
     (node_c7.visit_count = 0 → ∀ a, node_c7.nsa a = 0) ∧
     MIN_FLOAT < code_score node_c7 0 0 0) ∧
    (node_c7.valid (select_action node_c7 0 0 false 1 (1 / 2)) = true ∧
     (∀ b, node_c7.valid b = true →
        claim_score node_c7 0 0 b ≤
          claim_score node_c7 0 0 (select_action node_c7 0 0 false 1 (1 / 2))) ∧
     (∀ b, node_c7.valid b = true →
        b < select_action node_c7 0 0 false 1 (1 / 2) →
        claim_score node_c7 0 0 b <
          claim_score node_c7 0 0 (select_action node_c7 0 0 false 1 (1 / 2)))) := by
  have hv0 : node_c7.valid 0 = true := by decide
  have hinv : node_c7.visit_count = 0 → ∀ a, node_c7.nsa a = 0 :=
    fun _ _ => rfl
  have hsc : code_score node_c7 0 0 0 = 0 := by
    unfold code_score
    rw [if_pos (by decide : node_c7.nsa 0 = 0)]
    norm_num [node_c7]
  have hmin : MIN_FLOAT < code_score node_c7 0 0 0 := by
    rw [hsc]
    norm_num [MIN_FLOAT]
  exact ⟨⟨hv0, hinv, hmin⟩,
    c5_select_action_puct node_c7 0 0 (1 / 2) 1 0 hv0 hinv hmin⟩

/-- On integer-valued counts, the `EPS`-guarded strict comparison of the
temperature-0 scan is the plain strict comparison. -/
theorem eps_lt_nat (n m : ℕ) : ((n : ℚ) + EPS < (m : ℚ)) ↔ n < m := by
  have hEps0 : (0 : ℚ) < EPS := by norm_num [EPS]
  have hEps1 : EPS < 1 := by norm_num [EPS]
  constructor
  · intro h
    by_contra hc
    push_neg at hc
    have : (m : ℚ) ≤ (n : ℚ) := by exact_mod_cast hc
    linarith
  · intro h
    have : (n : ℚ) + 1 ≤ (m : ℚ) := by exact_mod_cast h
    linarith

/-- On integer-valued counts, the `EPS`-tolerant tie test of the
temperature-0 scan is plain equality. -/
theorem eps_tie_nat (n m : ℕ) : (|(m : ℚ) - (n : ℚ)| ≤ EPS) ↔ m = n := by
  have hEps1 : EPS < 1 := by norm_num [EPS]
  have hEps0 : (0 : ℚ) ≤ EPS := by norm_num [EPS]
  constructor
  · intro h
    by_contra hc
    have hz : ((m : ℤ) - (n : ℤ)) ≠ 0 := by
      intro hz0
      exact hc (by omega)
    have hone : (1 : ℤ) ≤ |(m : ℤ) - (n : ℤ)| := Int.one_le_abs hz
    have hone' : (1 : ℚ) ≤ |(m : ℚ) - (n : ℚ)| := by
      have := hone
      push_cast at this ⊢
      exact_mod_cast this
    linarith
  · intro h
    subst h
    simpa using hEps0

/-- Invariant of the temperature-0 scan: starting from `(-1, [])` or any
well-formed state (a natural best value with a non-empty tie list of legal
actions counting exactly the best), the fold keeps the state well-formed,
never decreases the best, dominates every legal count seen, and ends with a
non-empty tie list whenever a legal action was seen or the list started
non-empty. -/
theorem temp0_fold_go_spec (valid : Fin 162 → Bool) (counts : Fin 162 → ℚ)
    (hnat : ∀ a, ∃ n : ℕ, counts a = (n : ℚ)) :
    ∀ (L : List (Fin 162)) (init : ℚ × List (Fin 162)),
      (init = (-1, []) ∨
        ((∃ n : ℕ, init.1 = (n : ℚ)) ∧ init.2 ≠ [] ∧
          ∀ t ∈ init.2, valid t = true ∧ counts t = init.1)) →
      init.1 ≤ (L.foldl
          (fun st a =>
            if valid a then
              if st.1 + EPS < counts a then (counts a, [a])
              else if |counts a - st.1| ≤ EPS then (st.1, st.2 ++ [a])
              else st
            else st) init).1 ∧
      (∀ a ∈ L, valid a = true →
        counts a ≤ (L.foldl
          (fun st a =>
            if valid a then
              if st.1 + EPS < counts a then (counts a, [a])
              else if |counts a - st.1| ≤ EPS then (st.1, st.2 ++ [a])
              else st
            else st) init).1) ∧
      ((L.foldl
          (fun st a =>
            if valid a then
              if st.1 + EPS < counts a then (counts a, [a])
              else if |counts a - st.1| ≤ EPS then (st.1, st.2 ++ [a])
              else st
            else st) init) = (-1, []) ∨
        ((∃ n : ℕ, (L.foldl
            (fun st a =>
              if valid a then
                if st.1 + EPS < counts a then (counts a, [a])
                else if |counts a - st.1| ≤ EPS then (st.1, st.2 ++ [a])
                else st
              else st) init).1 = (n : ℚ)) ∧
          (L.foldl
            (fun st a =>
              if valid a then
                if st.1 + EPS < counts a then (counts a, [a])
                else if |counts a - st.1| ≤ EPS then (st.1, st.2 ++ [a])
                else st
              else st) init).2 ≠ [] ∧
          ∀ t ∈ (L.foldl
            (fun st a =>
              if valid a then
                if st.1 + EPS < counts a then (counts a, [a])
                else if |counts a - st.1| ≤ EPS then (st.1, st.2 ++ [a])
                else st
              else st) init).2,
            valid t = true ∧ counts t = (L.foldl
              (fun st a =>
                if valid a then
                  if st.1 + EPS < counts a then (counts a, [a])
                  else if |counts a - st.1| ≤ EPS then (st.1, st.2 ++ [a])
                  else st
                else st) init).1)) ∧
      (((∃ a ∈ L, valid a = true) ∨ init.2 ≠ []) →
        (L.foldl
          (fun st a =>
            if valid a then
              if st.1 + EPS < counts a then (counts a, [a])
              else if |counts a - st.1| ≤ EPS then (st.1, st.2 ++ [a])
              else st
            else st) init).2 ≠ []) := by
  have hEps0 : (0 : ℚ) < EPS := by norm_num [EPS]
  intro L
  induction L with
  | nil =>
    intro init hinit
    simp only [List.foldl_nil]
    refine ⟨le_refl _, by simp, hinit, ?_⟩
    intro h
    rcases h with ⟨a, ha, _⟩ | hne
    · exact absurd ha (List.not_mem_nil a)
    · exact hne
  | cons x T ih =>
    intro init hinit
    by_cases hvx : valid x = true
    · obtain ⟨nx, hnx⟩ := hnat x
      by_cases hgt : init.1 + EPS < counts x
      · have hstep : ∀ (f : (ℚ × List (Fin 162)) → Fin 162 → (ℚ × List (Fin 162))),
            True := fun _ => trivial
        have hfold : ((x :: T).foldl
            (fun st a =>
              if valid a then
                if st.1 + EPS < counts a then (counts a, [a])
                else if |counts a - st.1| ≤ EPS then (st.1, st.2 ++ [a])
                else st
              else st) init) = (T.foldl
            (fun st a =>
              if valid a then
                if st.1 + EPS < counts a then (counts a, [a])
                else if |counts a - st.1| ≤ EPS then (st.1, st.2 ++ [a])
                else st
              else st) (counts x, [x])) := by
          simp only [List.foldl_cons]
          rw [if_pos hvx, if_pos hgt]
        have h := ih (counts x, [x])
          (Or.inr ⟨⟨nx, hnx⟩, by simp, by
            intro t ht
            rcases List.mem_singleton.mp ht with rfl
            exact ⟨hvx, rfl⟩⟩)
        rw [hfold]
        refine ⟨le_trans (le_of_lt (lt_of_lt_of_le (by linarith) (le_refl (counts x)))) h.1,
          ?_, h.2.2.1, ?_⟩
        · intro a ha hva
          rcases List.mem_cons.mp ha with rfl | haT
          · exact h.1
          · exact h.2.1 a haT hva
        · intro _
          exact h.2.2.2 (Or.inr (by simp))
      · by_cases htie : |counts x - init.1| ≤ EPS
        · have hwf : (∃ n : ℕ, init.1 = (n : ℚ)) ∧ init.2 ≠ [] ∧
              ∀ t ∈ init.2, valid t = true ∧ counts t = init.1 := by
            rcases hinit with h | h
            · exfalso
              rw [h] at htie
              rw [hnx] at htie
              simp only at htie
              have hnn : (0 : ℚ) ≤ (nx : ℚ) := by positivity
              have habs : |((nx : ℚ)) - (-1)| = (nx : ℚ) + 1 := by
                rw [abs_of_nonneg (by linarith)]
                ring
              rw [habs] at htie
              norm_num [EPS] at htie
              linarith
            · exact h
          obtain ⟨⟨n0, hn0⟩, hne0, hall0⟩ := hwf
          have hcx : counts x = init.1 := by
            rw [hnx, hn0] at htie ⊢
            have := (eps_tie_nat n0 nx).mp htie
            rw [this]
          have hfold : ((x :: T).foldl
              (fun st a =>
                if valid a then
                  if st.1 + EPS < counts a then (counts a, [a])
                  else if |counts a - st.1| ≤ EPS then (st.1, st.2 ++ [a])
                  else st
                else st) init) = (T.foldl
              (fun st a =>
                if valid a then
                  if st.1 + EPS < counts a then (counts a, [a])
                  else if |counts a - st.1| ≤ EPS then (st.1, st.2 ++ [a])
                  else st
                else st) (init.1, init.2 ++ [x])) := by
            simp only [List.foldl_cons]
            rw [if_pos hvx, if_neg hgt, if_pos htie]
          have h := ih (init.1, init.2 ++ [x])
            (Or.inr ⟨⟨n0, hn0⟩, by simp, by
              intro t ht
              rcases List.mem_append.mp ht with htold | htnew
              · exact hall0 t htold
              · rcases List.mem_singleton.mp htnew with rfl
                exact ⟨hvx, hcx⟩⟩)
          rw [hfold]
          refine ⟨h.1, ?_, h.2.2.1, ?_⟩
          · intro a ha hva
            rcases List.mem_cons.mp ha with rfl | haT
            · rw [hcx]; exact h.1
            · exact h.2.1 a haT hva
          · intro _
            exact h.2.2.2 (Or.inr (by simp))
        · have hwf : (∃ n : ℕ, init.1 = (n : ℚ)) ∧ init.2 ≠ [] ∧
              ∀ t ∈ init.2, valid t = true ∧ counts t = init.1 := by
            rcases hinit with h | h
            · exfalso
              rw [h, hnx] at hgt
              simp only at hgt
              apply hgt
              have : (0 : ℚ) ≤ (nx : ℚ) := by positivity
              norm_num [EPS]
              linarith
            · exact h
          obtain ⟨⟨n0, hn0⟩, hne0, hall0⟩ := hwf
          have hcxlt : counts x < init.1 := by
            rw [hnx, hn0] at hgt htie ⊢
            have h1 : ¬(n0 < nx) := fun hc => hgt ((eps_lt_nat n0 nx).mpr hc)
            have h2 : nx ≠ n0 := fun hc => htie ((eps_tie_nat n0 nx).mpr hc)
            have : nx < n0 := by omega
            exact_mod_cast this
          have hfold : ((x :: T).foldl
              (fun st a =>
                if valid a then
                  if st.1 + EPS < counts a then (counts a, [a])
                  else if |counts a - st.1| ≤ EPS then (st.1, st.2 ++ [a])
                  else st
                else st) init) = (T.foldl
              (fun st a =>
                if valid a then
                  if st.1 + EPS < counts a then (counts a, [a])
                  else if |counts a - st.1| ≤ EPS then (st.1, st.2 ++ [a])
                  else st
                else st) init) := by
            simp only [List.foldl_cons]
            rw [if_pos hvx, if_neg hgt, if_neg htie]
          have h := ih init hinit
          rw [hfold]
          refine ⟨h.1, ?_, h.2.2.1, ?_⟩
          · intro a ha hva
            rcases List.mem_cons.mp ha with rfl | haT
            · exact le_trans (le_of_lt hcxlt) h.1
            · exact h.2.1 a haT hva
          · intro _
            exact h.2.2.2 (Or.inr hne0)
    · have hfold : ((x :: T).foldl
          (fun st a =>
            if valid a then
              if st.1 + EPS < counts a then (counts a, [a])
              else if |counts a - st.1| ≤ EPS then (st.1, st.2 ++ [a])
              else st
            else st) init) = (T.foldl
          (fun st a =>
            if valid a then
              if st.1 + EPS < counts a then (counts a, [a])
              else if |counts a - st.1| ≤ EPS then (st.1, st.2 ++ [a])
              else st
            else st) init) := by
        simp only [List.foldl_cons]
        rw [if_neg hvx]
      have h := ih init hinit
      rw [hfold]
      refine ⟨h.1, ?_, h.2.2.1, ?_⟩
      · intro a ha hva
        rcases List.mem_cons.mp ha with rfl | haT
        · exact absurd hva hvx
        · exact h.2.1 a haT hva
      · intro hx
        apply h.2.2.2
        rcases hx with ⟨a, ha, hva⟩ | hne
        · rcases List.mem_cons.mp ha with rfl | haT
          · exact absurd hva hvx
          · exact Or.inl ⟨a, haT, hva⟩
        · exact Or.inr hne

/-- The adjusted root counts are natural numbers (as exact rationals). -/
theorem root_counts_nat (valid : Fin 162 → Bool) (visits : Fin 162 → ℕ)
    (forced_playouts : Bool) (expected : Fin 162 → ℕ) (a : Fin 162) :
    ∃ n : ℕ, root_counts valid visits forced_playouts expected a = (n : ℚ) := by
  unfold root_counts
  by_cases h1 : forced_playouts = true
  · rw [if_pos h1]
    by_cases h2 : 0 < (List.finRange 162).foldl
        (fun m a => if valid a then max m (visits a) else m) 0
    · rw [if_pos h2]
      split_ifs
      · exact ⟨0, rfl⟩
      · exact ⟨visits a, rfl⟩
      · exact ⟨visits a - expected a, rfl⟩
      · exact ⟨0, rfl⟩
    · rw [if_neg h2]
      split_ifs
      · exact ⟨visits a, rfl⟩
      · exact ⟨0, rfl⟩
  · rw [if_neg h1]
    split_ifs
    · exact ⟨visits a, rfl⟩
    · exact ⟨0, rfl⟩

/-- The temperature-0 selection picks a legal action whose count dominates
every legal count, for any integer-valued count vector and any random draw. -/
theorem temp0_selected_spec (valid : Fin 162 → Bool) (counts : Fin 162 → ℚ)
    (hnat : ∀ a, ∃ n : ℕ, counts a = (n : ℚ))
    (hex : ∃ a, valid a = true) (choice : ℕ) :
    valid (temp0_selected valid counts choice) = true ∧
    ∀ b, valid b = true → counts b ≤ counts (temp0_selected valid counts choice) := by
  obtain ⟨a0, ha0⟩ := hex
  have h := temp0_fold_go_spec valid counts hnat (List.finRange 162) (-1, []) (Or.inl rfl)
  have hne : (temp0_fold valid counts).2 ≠ [] :=
    h.2.2.2 (Or.inl ⟨a0, List.mem_finRange a0, ha0⟩)
  rcases h.2.2.1 with hbad | ⟨⟨n, hn⟩, hne2, hall⟩
  · exact absurd (congrArg Prod.snd hbad) hne
  · have hsel_mem : temp0_selected valid counts choice ∈ (temp0_fold valid counts).2 := by
      unfold temp0_selected
      rw [if_neg (by simpa [List.isEmpty_iff] using hne)]
      have hlen : 0 < (temp0_fold valid counts).2.length := List.length_pos.mpr hne
      have hlt : choice % (temp0_fold valid counts).2.length <
          (temp0_fold valid counts).2.length := Nat.mod_lt _ hlen
      rw [List.getD_eq_getElem?_getD, List.getElem?_eq_getElem hlt]
      exact List.getElem_mem hlt
    have hsel := hall _ hsel_mem
    refine ⟨hsel.1, ?_⟩
    intro b hb
    rw [hsel.2]
    exact h.2.1 b (List.mem_finRange b) hb

/-- Claim C6 (amended) — for any temperature-0 root distribution with at
least one legal action, the returned policy is one-hot on a legal action
whose forced-playout-adjusted visit count is maximal among legal actions; the
tie-break among max-count actions (including the all-zero case) is a uniform
random draw over the tied actions, not necessarily the first legal action. -/
theorem c6_temp0_amended (valid : Fin 162 → Bool) (visits : Fin 162 → ℕ)
    (forced_playouts : Bool) (coefficient : ℝ) (policy : Fin 162 → ℝ)
    (num_sims : ℕ) (choice : ℕ) (hex : ∃ a, valid a = true) :
    valid (temp0_selected valid
        (root_counts valid visits forced_playouts
          (forced_expected coefficient policy num_sims)) choice) = true ∧
    (∀ b, valid b = true →
      root_counts valid visits forced_playouts
          (forced_expected coefficient policy num_sims) b ≤
        root_counts valid visits forced_playouts
          (forced_expected coefficient policy num_sims)
          (temp0_selected valid
            (root_counts valid visits forced_playouts
              (forced_expected coefficient policy num_sims)) choice)) ∧
    temp0_policy valid
        (root_counts valid visits forced_playouts
          (forced_expected coefficient policy num_sims)) choice
        (temp0_selected valid
          (root_counts valid visits forced_playouts
            (forced_expected coefficient policy num_sims)) choice) = 1 ∧
    (∀ b, b ≠ temp0_selected valid
        (root_counts valid visits forced_playouts
          (forced_expected coefficient policy num_sims)) choice →
      temp0_policy valid
        (root_counts valid visits forced_playouts
          (forced_expected coefficient policy num_sims)) choice b = 0) := by
  have h := temp0_selected_spec valid
    (root_counts valid visits forced_playouts
      (forced_expected coefficient policy num_sims))
    (root_counts_nat valid visits forced_playouts
      (forced_expected coefficient policy num_sims)) hex choice
  refine ⟨h.1, h.2, ?_, ?_⟩
  · unfold temp0_policy
    rw [if_pos rfl]
  · intro b hb
    unfold temp0_policy
    rw [if_neg hb]

/-- Witness for the amended C6: two legal actions, zero visits, forced
playouts off, random draw 0. -/
theorem c6_temp0_amended_witness :
    (∃ a : Fin 162, (fun a : Fin 162 => decide (a.val < 2)) a = true) ∧
    ((fun a : Fin 162 => decide (a.val < 2))
        (temp0_selected (fun a : Fin 162 => decide (a.val < 2))
          (root_counts (fun a : Fin 162 => decide (a.val < 2)) (fun _ => 0) false
            (forced_expected (1 / 2) (fun _ => 0) 16)) 0) = true ∧
     (∀ b, (fun a : Fin 162 => decide (a.val < 2)) b = true →
        root_counts (fun a : Fin 162 => decide (a.val < 2)) (fun _ => 0) false
            (forced_expected (1 / 2) (fun _ => 0) 16) b ≤
          root_counts (fun a : Fin 162 => decide (a.val < 2)) (fun _ => 0) false
            (forced_expected (1 / 2) (fun _ => 0) 16)
            (temp0_selected (fun a : Fin 162 => decide (a.val < 2))
              (root_counts (fun a : Fin 162 => decide (a.val < 2)) (fun _ => 0) false
                (forced_expected (1 / 2) (fun _ => 0) 16)) 0)) ∧
     temp0_policy (fun a : Fin 162 => decide (a.val < 2))
        (root_counts (fun a : Fin 162 => decide (a.val < 2)) (fun _ => 0) false
          (forced_expected (1 / 2) (fun _ => 0) 16)) 0
        (temp0_selected (fun a : Fin 162 => decide (a.val < 2))
          (root_counts (fun a : Fin 162 => decide (a.val < 2)) (fun _ => 0) false
            (forced_expected (1 / 2) (fun _ => 0) 16)) 0) = 1 ∧
     (∀ b, b ≠ temp0_selected (fun a : Fin 162 => decide (a.val < 2))
          (root_counts (fun a : Fin 162 => decide (a.val < 2)) (fun _ => 0) false
            (forced_expected (1 / 2) (fun _ => 0) 16)) 0 →
        temp0_policy (fun a : Fin 162 => decide (a.val < 2))
          (root_counts (fun a : Fin 162 => decide (a.val < 2)) (fun _ => 0) false
            (forced_expected (1 / 2) (fun _ => 0) 16)) 0 b = 0)) :=
  ⟨⟨0, by decide⟩,
    c6_temp0_amended (fun a : Fin 162 => decide (a.val < 2)) (fun _ => 0) false
      (1 / 2) (fun _ => 0) 16 0 ⟨0, by decide⟩⟩

/-- On an all-zero count vector the temperature-0 scan, once a first legal
action has set the running best to 0, appends every further legal action to
the tie list. -/
theorem temp0_fold_zero_aux (valid : Fin 162 → Bool) (counts : Fin 162 → ℚ)
    (hc : ∀ b, counts b = 0) :
    ∀ (L : List (Fin 162)) (acc : List (Fin 162)),
      L.foldl
          (fun st a =>
            if valid a then
              if st.1 + EPS < counts a then (counts a, [a])
              else if |counts a - st.1| ≤ EPS then (st.1, st.2 ++ [a])
              else st
            else st) (0, acc) =
        (0, acc ++ L.filter (fun a => valid a)) := by
  intro L
  induction L with
  | nil => intro acc; simp
  | cons x T ih =>
    intro acc
    by_cases hvx : valid x = true
    · simp only [List.foldl_cons]
      rw [if_pos hvx, hc x, if_neg (by norm_num [EPS] : ¬((0 : ℚ) + EPS < 0)),
        if_pos (by norm_num [EPS] : |(0 : ℚ) - 0| ≤ EPS)]
      rw [ih (acc ++ [x]), List.filter_cons_of_pos hvx, List.append_assoc,
        List.singleton_append]
    · simp only [List.foldl_cons]
      rw [if_neg hvx, ih acc, List.filter_cons_of_neg (by simpa using hvx)]

/-- On an all-zero count vector with at least one legal action, the
temperature-0 scan ends with best 0 and the tie list equal to the legal
actions in order. -/
theorem temp0_fold_zero (valid : Fin 162 → Bool) (counts : Fin 162 → ℚ)
    (hc : ∀ b, counts b = 0) :
    ∀ L : List (Fin 162), L.filter (fun a => valid a) ≠ [] →
      L.foldl
          (fun st a =>
            if valid a then
              if st.1 + EPS < counts a then (counts a, [a])
              else if |counts a - st.1| ≤ EPS then (st.1, st.2 ++ [a])
              else st
            else st) (-1, []) =
        (0, L.filter (fun a => valid a)) := by
  intro L
  induction L with
  | nil => intro h; exact absurd rfl h
  | cons x T ih =>
    intro hne
    by_cases hvx : valid x = true
    · simp only [List.foldl_cons]
      rw [if_pos hvx, hc x, if_pos (by norm_num [EPS] : (-1 : ℚ) + EPS < 0)]
      rw [temp0_fold_zero_aux valid counts hc T [x],
        List.filter_cons_of_pos hvx, List.singleton_append]
    · simp only [List.foldl_cons]
      rw [if_neg hvx]
      rw [List.filter_cons_of_neg (by simpa using hvx)] at hne ⊢
      exact ih hne

/-- Claim C6 — counterexample: with two legal actions (0 and 1), all visit
counts zero and forced playouts off, the first legal action is 0, yet with
random draw 1 the code's temperature-0 tie-break selects action 1 (all
count-0 legal actions enter the tie list and `gen_range` picks among them),
so the policy is not the one-hot on the first legal action the claim
requires. -/
theorem c6_temp0_counterexample :
    (∀ b : Fin 162, (fun a : Fin 162 => decide (a.val < 2)) b = true →
      root_counts (fun a : Fin 162 => decide (a.val < 2)) (fun _ => 0) false
        (forced_expected (1 / 2) (fun _ => 0) 16) b = 0) ∧
    (List.finRange 162).find? (fun a => (fun a : Fin 162 => decide (a.val < 2)) a) =
      some 0 ∧
    temp0_selected (fun a : Fin 162 => decide (a.val < 2))
      (root_counts (fun a : Fin 162 => decide (a.val < 2)) (fun _ => 0) false
        (forced_expected (1 / 2) (fun _ => 0) 16)) 1 = 1 ∧
    temp0_policy (fun a : Fin 162 => decide (a.val < 2))
      (root_counts (fun a : Fin 162 => decide (a.val < 2)) (fun _ => 0) false
        (forced_expected (1 / 2) (fun _ => 0) 16)) 1 (0 : Fin 162) = 0 ∧
    (1 : Fin 162) ≠ (0 : Fin 162) := by
  have hcounts : ∀ b : Fin 162,
      root_counts (fun a : Fin 162 => decide (a.val < 2)) (fun _ => 0) false
        (forced_expected (1 / 2) (fun _ => 0) 16) b = 0 := by
    intro b
    unfold root_counts
    rw [if_neg (by simp)]
    by_cases hb : (fun a : Fin 162 => decide (a.val < 2)) b = true
    · rw [if_pos hb]; norm_num
    · rw [if_neg hb]
  have hfilter : (List.finRange 162).filter
      (fun a : Fin 162 => decide (a.val < 2)) = [0, 1] := by decide
  have hfold : temp0_fold (fun a : Fin 162 => decide (a.val < 2))
      (root_counts (fun a : Fin 162 => decide (a.val < 2)) (fun _ => 0) false
        (forced_expected (1 / 2) (fun _ => 0) 16)) = (0, [0, 1]) := by
    unfold temp0_fold
    rw [temp0_fold_zero _ _ hcounts (List.finRange 162) (by rw [hfilter]; simp), hfilter]
  have hsel : temp0_selected (fun a : Fin 162 => decide (a.val < 2))
      (root_counts (fun a : Fin 162 => decide (a.val < 2)) (fun _ => 0) false
        (forced_expected (1 / 2) (fun _ => 0) 16)) 1 = 1 := by
    unfold temp0_selected
    rw [hfold]
    simp
  refine ⟨fun b _ => hcounts b, by decide, hsel, ?_, by decide⟩
  unfold temp0_policy
  rw [hsel, if_neg (by decide : ¬(0 : Fin 162) = (1 : Fin 162))]

end BoardTheorems

end Ascent
